import Mathlib

/-!
Verification development for the lexical search and ranking engine of the
TNVED product-lookup repository (the `handleSearchLocal` pipeline of
`src/App.tsx`, lines 10-298, together with the stemmer `getStem`, the synonym
index built at lines 42-68 and the catalog index built at lines 78-120).

Modelling conventions:
* JavaScript strings are modelled as lists of Unicode code points (`JStr`).
  All characters appearing in the repository are in the Basic Multilingual
  Plane, so code points coincide with UTF-16 code units and `String.length`
  is list length.
* `String.prototype.toLowerCase` is modelled on the character ranges used by
  the repository: ASCII `A`-`Z` and Cyrillic `А`-`Я`/`Ё`; all other code
  points are fixed.
* JavaScript `number` arithmetic on scores is modelled by exact rational
  arithmetic.  Every score contribution of the engine
  (`2000 * importance * matchQuality` with `importance ∈ {2.5, 1}` and
  `matchQuality ∈ {1.2, 0.8}`, plus the integer weights 4000/1500/100) is an
  integer that IEEE-754 double arithmetic also produces exactly, and the
  density comparison against `0.4` agrees with the double comparison for
  every query of realistic length, so the rational model is faithful.
* `Map` and `Set` are modelled as association lists / duplicate-free lists
  preserving insertion order, matching the iteration order guarantees of
  JavaScript `Map`/`Set`.
* The catalog `TNVED_DB` and the synonym table `SYNONYMS` are imported by
  `src/App.tsx` from `./data/...` files that are not part of the source
  snapshot, so the development is parameterised by an arbitrary catalog
  `db : List TNVEDCode` and synonym table `syn : List (JStr × List JStr)`
  (the list mirroring `Object.entries` order).
-/

unseal Rat.mul Rat.add Rat.inv Rat.ofScientific

/-- A JavaScript string, as its list of Unicode code points. -/
abbrev JStr := List Nat

/-- Converts a Lean string literal to its code-point list, used to write
concrete JavaScript strings in this development. -/
def jstr (s : String) : JStr := s.data.map Char.toNat

/-- Whitespace code points recognised by JavaScript's `\s`, `trim` and the
whitespace splitting in the engine. -/
def isWs (n : Nat) : Bool :=
  decide ((9 ≤ n ∧ n ≤ 13) ∨ n = 32 ∨ n = 160 ∨ n = 5760 ∨ (8192 ≤ n ∧ n ≤ 8202) ∨
    n = 8232 ∨ n = 8233 ∨ n = 8239 ∨ n = 8287 ∨ n = 12288 ∨ n = 65279)

/-- Lower-cases one code point, modelling `toLowerCase` on the ASCII and
Cyrillic ranges used by the repository (`A`-`Z`, `А`-`Я`, `Ё`). -/
def lowerCp (n : Nat) : Nat :=
  if 65 ≤ n ∧ n ≤ 90 then n + 32
  else if 1040 ≤ n ∧ n ≤ 1071 then n + 32
  else if n = 1025 then 1105
  else n

/-- Models `String.prototype.toLowerCase`. -/
def jsToLower (s : JStr) : JStr := s.map lowerCp

/-- Models `String.prototype.trim`: drops leading and trailing whitespace. -/
def jsTrim (s : JStr) : JStr :=
  ((s.dropWhile isWs).reverse.dropWhile isWs).reverse

/-- Models `String.prototype.split(/\s+/)`: chunks separated by maximal
whitespace runs, with an empty leading (resp. trailing) chunk when the
string starts (resp. ends) with whitespace, exactly as the regex split
produces.  Implemented as a single left fold over the code points with
state (finished chunks, current chunk reversed, currently-inside-run). -/
def splitWsStep (st : List JStr × JStr × Bool) (c : Nat) : List JStr × JStr × Bool :=
  if isWs c then
    if st.2.2 then st else (st.1 ++ [st.2.1.reverse], [], true)
  else (st.1, c :: st.2.1, false)

/-- Runs the chunking fold and closes the final chunk. -/
def splitWs (s : JStr) : List JStr :=
  let st := s.foldl splitWsStep (([] : List JStr), ([] : JStr), false)
  st.1 ++ [st.2.1.reverse]

/-- Models `String.prototype.includes`: `jsIncludes s sub` holds when `sub`
occurs contiguously inside `s`. -/
def jsIncludes : JStr → JStr → Bool
  | [], sub => sub.isEmpty
  | c :: t, sub => sub.isPrefixOf (c :: t) || jsIncludes t sub

/-- Punctuation removed by the stemmer's `replace(/[.,!?;:]/g, '')`. -/
def isPunct (n : Nat) : Bool :=
  decide (n = 46 ∨ n = 44 ∨ n = 33 ∨ n = 63 ∨ n = 59 ∨ n = 58)

/-- Models the global punctuation-stripping replace of `getStem`. -/
def removePunct (s : JStr) : JStr := s.filter (fun c => !isPunct c)

/-- The suffix alternation of `getStem`'s second `replace`, in source order
(`иями|ями|иям|ям|иях|ях|овая|овое|овый|очные|очный|ов|ев|ий|ый|ая|ое|ые|ие|ия|ой|ей|ам|ом|а|и|ы|е|у|ю|ь|я|с`). -/
def SUFFIXES : List JStr :=
  [jstr "иями", jstr "ями", jstr "иям", jstr "ям", jstr "иях", jstr "ях",
   jstr "овая", jstr "овое", jstr "овый", jstr "очные", jstr "очный",
   jstr "ов", jstr "ев", jstr "ий", jstr "ый", jstr "ая", jstr "ое",
   jstr "ые", jstr "ие", jstr "ия", jstr "ой", jstr "ей", jstr "ам",
   jstr "ом", jstr "а", jstr "и", jstr "ы", jstr "е", jstr "у", jstr "ю",
   jstr "ь", jstr "я", jstr "с"]

/-- Models the single end-anchored replacement performed by
`replace(/(…)$/g, '')`: the regex engine scans positions left to right and
removes the suffix starting at the first position whose remainder is one of
the alternatives, i.e. the longest listed suffix of the word (at most one
replacement can occur since every match is anchored at the end).  The
recursion mirrors that scan: if the whole word is an alternative it is
removed, otherwise the head is kept and the tail is scanned. -/
def stemStrip : JStr → JStr
  | [] => []
  | c :: rest =>
    if SUFFIXES.any (fun suf => suf == c :: rest) then []
    else c :: stemStrip rest

/-- Models `getStem` (src/App.tsx lines 31-39): lowercase, trim, strip
punctuation, then strip the end-anchored suffix alternation. -/
def getStem (w : JStr) : JStr :=
  stemStrip (removePunct (jsTrim (jsToLower w)))

/-- The stop-word set of `src/App.tsx` lines 10-14. -/
def STOP_WORDS : List JStr :=
  [jstr "для", jstr "из", jstr "под", jstr "над", jstr "без", jstr "при",
   jstr "все", jstr "эти", jstr "этот", jstr "какой", jstr "такой",
   jstr "сверху", jstr "снизу", jstr "внутри", jstr "комплект", jstr "набор",
   jstr "шт", jstr "кг", jstr "с", jstr "и", jstr "в", jstr "на",
   jstr "бывший", jstr "новые", jstr "прочие", jstr "прочая", jstr "включая",
   jstr "кроме", jstr "использования", jstr "предназначенный"]

/-- Association-list lookup modelling `Map.prototype.get`. -/
def mapGet {β : Type} : List (JStr × β) → JStr → Option β
  | [], _ => none
  | (k2, v) :: rest, k => if k2 == k then some v else mapGet rest k

/-- Models the `get`-then-`push`-or-`set` pattern used to build the postings
maps: appends `v` to the list stored at `k`, creating the entry at the end
when `k` is absent (JavaScript `Map` insertion order). -/
def mapPush {β : Type} : List (JStr × List β) → JStr → β → List (JStr × List β)
  | [], k, v => [(k, [v])]
  | (k2, vs) :: rest, k, v =>
    if k2 == k then (k2, vs ++ [v]) :: rest else (k2, vs) :: mapPush rest k v

/-- Models `codePrefixWeights.set(prefix, (codePrefixWeights.get(prefix) || 0) + weight)`. -/
def mapAdd : List (JStr × ℚ) → JStr → ℚ → List (JStr × ℚ)
  | [], k, w => [(k, w)]
  | (k2, x) :: rest, k, w =>
    if k2 == k then (k2, x + w) :: rest else (k2, x) :: mapAdd rest k w

/-- Models `Set.prototype.add` on a duplicate-free insertion-ordered list. -/
def setAdd (s : List Nat) (i : Nat) : List Nat :=
  if s.contains i then s else s ++ [i]

/-- Adds every element of `l` to the set `s` in order. -/
def setAddAll (s : List Nat) (l : List Nat) : List Nat := l.foldl setAdd s

/-- First-occurrence deduplication, modelling iteration over
`new Set(xs)` in insertion order. -/
def dedupFirst : List JStr → List JStr → List JStr
  | [], _ => []
  | x :: xs, seen =>
    if seen.contains x then dedupFirst xs seen
    else x :: dedupFirst xs (x :: seen)

/-- A catalog entry (the `TNVEDCode` record of `src/types`): classification
code, display name, free-text description, category label and the numeric
duty/VAT rates consumed only by the external calculator. -/
structure TNVEDCode where
  code : JStr
  name : JStr
  description : JStr
  category : JStr
  importDuty : ℚ
  vat : ℚ
deriving DecidableEq

/-- A catalog entry together with the per-entry fields precomputed by the
search index build (`IndexedTNVED` in `src/App.tsx` lines 70-95; the source
field names carry a leading underscore). -/
structure IndexedTNVED where
  item : TNVEDCode
  titleLower : JStr
  descLower : JStr
  titleStems : List JStr
  code2 : JStr
  code4 : JStr
deriving DecidableEq

/-- Precomputes the indexed fields of one entry (the `TNVED_DB.map` body of
`src/App.tsx` lines 79-95): lowercase name and description, title stems of
length at least 2, and the 2- and 4-character code slices. -/
def indexItem (e : TNVEDCode) : IndexedTNVED :=
  { item := e
    titleLower := jsToLower e.name
    descLower := jsToLower e.description
    titleStems := ((splitWs (jsToLower e.name)).map getStem).filter (fun s => 2 ≤ s.length)
    code2 := e.code.take 2
    code4 := e.code.take 4 }

/-- The synonym index of `src/App.tsx` lines 42-68: the inverted
stem-to-code-prefixes map plus the 3-character bucket map over its stems. -/
structure SynIndex where
  stemToPrefixes : List (JStr × List JStr)
  stemPrefixIndex : List (JStr × List JStr)

/-- Builds `stemToPrefixes`: for every `(codePrefix, terms)` entry of the
synonym table and every term, the term's stem (when of length at least 2)
maps to the list of code prefixes registered for it, in insertion order. -/
def buildStemToPrefixes (syn : List (JStr × List JStr)) : List (JStr × List JStr) :=
  syn.foldl
    (fun m pr =>
      pr.2.foldl
        (fun m2 term =>
          let stem := getStem (jsTrim (jsToLower term))
          if stem.length < 2 then m2 else mapPush m2 stem pr.1)
        m)
    []

/-- Builds `stemPrefixIndex`: buckets the indexed stems by their first three
code points (skipping keys shorter than 2). -/
def buildStemPrefixIndex (stp : List (JStr × List JStr)) : List (JStr × List JStr) :=
  (stp.map Prod.fst).foldl
    (fun m stem =>
      let key := stem.take 3
      if key.length < 2 then m else mapPush m key stem)
    []

/-- Builds the synonym index from the synonym table (the `useMemo` at
`src/App.tsx` lines 42-68). -/
def buildSynIndex (syn : List (JStr × List JStr)) : SynIndex :=
  { stemToPrefixes := buildStemToPrefixes syn
    stemPrefixIndex := buildStemPrefixIndex (buildStemToPrefixes syn) }

/-- The catalog search index of `src/App.tsx` lines 78-120: indexed items in
catalog order plus the three postings maps. -/
structure SearchIndex where
  items : List IndexedTNVED
  byPrefix2 : List (JStr × List Nat)
  byPrefix4 : List (JStr × List Nat)
  byStem : List (JStr × List Nat)

/-- Adds one item's unique title stems of length at least 3 to the title-stem
postings map (the `new Set(it._titleStems)` loop of lines 111-116). -/
def pushTitleStems (m : List (JStr × List Nat)) (i : Nat) (stems : List JStr) :
    List (JStr × List Nat) :=
  (dedupFirst stems []).foldl
    (fun m2 s => if s.length < 3 then m2 else mapPush m2 s i) m

/-- Builds the search index from the catalog (the `useMemo` at lines 78-120;
the source fills the three postings maps in one pass over the items, which
is observationally the same as the three independent passes here since the
maps are disjoint). -/
def buildSearchIndex (db : List TNVEDCode) : SearchIndex :=
  { items := db.map indexItem
    byPrefix2 := (db.map indexItem).enum.foldl (fun m p => mapPush m p.2.code2 p.1) []
    byPrefix4 := (db.map indexItem).enum.foldl (fun m p => mapPush m p.2.code4 p.1) []
    byStem := (db.map indexItem).enum.foldl (fun m p => pushTitleStems m p.1 p.2.titleStems) [] }

/-- The normalized query: `query.trim().toLowerCase()` (line 163). -/
def queryTrimmed (query : JStr) : JStr := jsToLower (jsTrim query)

/-- The query words (lines 166-169): whitespace split, trimmed, keeping
words of length at least 2 that are not stop words. -/
def queryWords (query : JStr) : List JStr :=
  ((splitWs (queryTrimmed query)).map jsTrim).filter
    (fun w => 2 ≤ w.length && !(STOP_WORDS.contains w))

/-- The query stems (line 173): stems of the query words, of length at
least 2. -/
def queryStems (query : JStr) : List JStr :=
  ((queryWords query).map getStem).filter (fun s => 2 ≤ s.length)

/-- The approximate (bucket) synonym lookup of lines 191-201: every stem in
the query stem's 3-character bucket that contains it or is contained in it
contributes `2000 * importance * matchQuality` to each of its prefixes. -/
def fuzzyStep (sidx : SynIndex) (importance : ℚ) (qStem : JStr)
    (m : List (JStr × ℚ)) : List (JStr × ℚ) :=
  ((mapGet sidx.stemPrefixIndex (qStem.take 3)).getD []).foldl
    (fun m2 mapStem =>
      if jsIncludes qStem mapStem || jsIncludes mapStem qStem then
        match mapGet sidx.stemToPrefixes mapStem with
        | none => m2
        | some prefixList =>
          let matchQuality : ℚ := if mapStem == qStem then 1.2 else 0.8
          prefixList.foldl (fun m3 p => mapAdd m3 p (2000 * importance * matchQuality)) m2
      else m2)
    m

/-- One step of the prefix-weight accumulation (lines 182-202): a direct
stem hit adds `2000 * importance * 1.2` for every registered prefix and
skips the fuzzy lookup; otherwise the bucket lookup runs. -/
def stemWeights (sidx : SynIndex) (m : List (JStr × ℚ)) (qIdx : Nat) (qStem : JStr) :
    List (JStr × ℚ) :=
  let importance : ℚ := if qIdx == 0 then 2.5 else 1.0
  match mapGet sidx.stemToPrefixes qStem with
  | some direct =>
    if direct.isEmpty then fuzzyStep sidx importance qStem m
    else direct.foldl (fun m2 p => mapAdd m2 p (2000 * importance * 1.2)) m
  | none => fuzzyStep sidx importance qStem m

/-- The accumulated code-prefix weights of a stem list (lines 177-202); the
first stem has importance 2.5, later stems 1.0. -/
def codePrefixWeights (sidx : SynIndex) (stems : List JStr) : List (JStr × ℚ) :=
  stems.enum.foldl (fun m p => stemWeights sidx m p.1 p.2) []

/-- `addCandidatesFromPrefix` (lines 207-224): pulls postings for a
2-character prefix from `byPrefix2`, for a 4-character prefix from
`byPrefix4`, and for any other length from `byPrefix4` keyed by the first
four code points when those exist. -/
def addPrefixCandidates (idx : SearchIndex) (cands : List Nat) (p : JStr) : List Nat :=
  if p.length == 2 then setAddAll cands ((mapGet idx.byPrefix2 p).getD [])
  else if p.length == 4 then setAddAll cands ((mapGet idx.byPrefix4 p).getD [])
  else
    let p4 := p.take 4
    if p4.length == 4 then setAddAll cands ((mapGet idx.byPrefix4 p4).getD []) else cands

/-- The candidate set build (lines 204-239): with a prefix signal, only the
prefix postings are consulted; otherwise the title-stem postings, and as a
last resort the capped scan of the first `min(|items|, 3000)` entries. -/
def buildCandidates (idx : SearchIndex) (weights : List (JStr × ℚ))
    (stems : List JStr) : List Nat :=
  if 0 < weights.length then
    weights.foldl (fun c pw => addPrefixCandidates idx c pw.1) []
  else
    let c := stems.foldl (fun c2 s => setAddAll c2 ((mapGet idx.byStem s).getD [])) []
    if c.isEmpty then List.range (min idx.items.length 3000) else c

/-- Does a title stem of the item contain the query stem or vice versa
(line 274)? -/
def titleHit (it : IndexedTNVED) (s : JStr) : Bool :=
  it.titleStems.any (fun ts => jsIncludes ts s || jsIncludes s ts)

/-- Does the item's lowercase description contain the query stem (line 280)? -/
def descHit (it : IndexedTNVED) (s : JStr) : Bool := jsIncludes it.descLower s

/-- The prefix-signal fold of the scorer (lines 251-265): every weighted
prefix whose matching-length code slice equals the item's adds its weight
and confirms the subject. -/
def prefixFold (it : IndexedTNVED) : List (JStr × ℚ) → ℚ × Bool → ℚ × Bool
  | [], st => st
  | (p, w) :: rest, (score, subj) =>
    if p.length == 2 && it.code2 == p then prefixFold it rest (score + w, true)
    else if p.length == 4 && it.code4 == p then prefixFold it rest (score + w, true)
    else if !(p.length == 2) && !(p.length == 4) && p.isPrefixOf it.item.code then
      prefixFold it rest (score + w, true)
    else prefixFold it rest (score, subj)

/-- The text-signal fold of the scorer (lines 268-286): a title-stem
containment match adds 4000 (first stem) or 1500 and confirms the subject;
failing that, a description substring match adds 100; either counts the
stem as matched. -/
def textFold (it : IndexedTNVED) : List JStr → Nat → ℚ × Bool × Nat → ℚ × Bool × Nat
  | [], _, st => st
  | qStem :: rest, qIdx, (score, subj, matched) =>
    if titleHit it qStem then
      textFold it rest (qIdx + 1) (score + (if qIdx == 0 then 4000 else 1500), true, matched + 1)
    else if descHit it qStem then
      textFold it rest (qIdx + 1) (score + 100, subj, matched + 1)
    else textFold it rest (qIdx + 1) (score, subj, matched)

/-- The per-candidate score, subject-confirmed flag and matched-stem count
(lines 245-286). -/
def scoreEntry (weights : List (JStr × ℚ)) (stems : List JStr) (it : IndexedTNVED) :
    ℚ × Bool × Nat :=
  let pr := prefixFold it weights (0, false)
  textFold it stems 0 (pr.1, pr.2, 0)

/-- The relevance decision of lines 288-289: subject confirmed, and either a
raw score above 800 for a single-stem query or a match density of at least
0.4 otherwise. -/
def isRelevant (stems : List JStr) (st : ℚ × Bool × Nat) : Bool :=
  st.2.1 &&
    (if stems.length == 1 then decide (800 < st.1)
     else decide ((0.4 : ℚ) ≤ (st.2.2 : ℚ) / (stems.length : ℚ)))

/-- Scores one candidate and keeps it (with its score) when relevant
(line 291). -/
def scoreFilter (weights : List (JStr × ℚ)) (stems : List JStr) (it : IndexedTNVED) :
    Option (TNVEDCode × ℚ) :=
  if isRelevant stems (scoreEntry weights stems it) then
    some (it.item, (scoreEntry weights stems it).1)
  else none

/-- The candidate set of a query against the built indexes. -/
def candidatesOf (sidx : SynIndex) (idx : SearchIndex) (query : JStr) : List Nat :=
  buildCandidates idx (codePrefixWeights sidx (queryStems query)) (queryStems query)

/-- The relevant scored results of a query, in candidate order
(lines 241-292). -/
def relevantResults (sidx : SynIndex) (idx : SearchIndex) (query : JStr) :
    List (TNVEDCode × ℚ) :=
  (candidatesOf sidx idx query).filterMap
    (fun i => (idx.items[i]?).bind
      (scoreFilter (codePrefixWeights sidx (queryStems query)) (queryStems query)))

/-- Stable insertion into a list sorted by strictly descending score: the
inserted element goes before the first strictly lower score and after equal
scores, which is where a stable descending sort places an earlier element. -/
def insertDesc (x : TNVEDCode × ℚ) : List (TNVEDCode × ℚ) → List (TNVEDCode × ℚ)
  | [] => [x]
  | y :: rest => if y.2 ≤ x.2 then x :: y :: rest else y :: insertDesc x rest

/-- Models `results.sort((a, b) => b.score - a.score)`: the unique stable
descending-by-score ordering required of `Array.prototype.sort`, realised
as a stable insertion sort. -/
def sortDesc : List (TNVEDCode × ℚ) → List (TNVEDCode × ℚ)
  | [] => []
  | x :: rest => insertDesc x (sortDesc rest)

/-- The full search pipeline `handleSearchLocal` (lines 162-298): early
returns for degenerate queries, then the sorted relevant items capped
at 30. -/
def handleSearchLocal (sidx : SynIndex) (idx : SearchIndex) (query : JStr) :
    List TNVEDCode :=
  if (queryTrimmed query).length < 2 then []
  else if (queryWords query).isEmpty then []
  else if (queryStems query).isEmpty then []
  else ((sortDesc (relevantResults sidx idx query)).map Prod.fst).take 30

/-- Does a weighted code prefix match an entry, per the scorer's three-way
branch (lines 253-263): 2-character prefixes against the 2-slice,
4-character prefixes against the 4-slice, any other length via
`startsWith`. -/
def prefixMatches (p : JStr) (e : TNVEDCode) : Bool :=
  if p.length == 2 then (indexItem e).code2 == p
  else if p.length == 4 then (indexItem e).code4 == p
  else p.isPrefixOf e.code

/-- Title-stem containment match of a stem against an entry. -/
def entryTitleMatch (e : TNVEDCode) (s : JStr) : Bool := titleHit (indexItem e) s

/-- Description substring match of a stem against an entry. -/
def entryDescMatch (e : TNVEDCode) (s : JStr) : Bool := descHit (indexItem e) s

/-- The code prefixes a stem reaches through the bucket (fuzzy) lookup. -/
def stemFuzzy (sidx : SynIndex) (s : JStr) : List JStr :=
  ((mapGet sidx.stemPrefixIndex (s.take 3)).getD []).foldl
    (fun acc mapStem =>
      if jsIncludes s mapStem || jsIncludes mapStem s then
        acc ++ ((mapGet sidx.stemToPrefixes mapStem).getD [])
      else acc)
    []

/-- The code prefixes a stem reaches in the synonym expansion step: the
direct hit when present and non-empty, the bucket lookup otherwise. -/
def stemExpansion (sidx : SynIndex) (s : JStr) : List JStr :=
  match mapGet sidx.stemToPrefixes s with
  | some direct => if direct.isEmpty then stemFuzzy sidx s else direct
  | none => stemFuzzy sidx s

/-- A stem counts as matched against an entry when it produced a title-stem
containment match, a description substring match, or a code-prefix signal
match (the match notion of the multi-term density claim). -/
def broadStemMatch (sidx : SynIndex) (s : JStr) (e : TNVEDCode) : Bool :=
  entryTitleMatch e s || entryDescMatch e s ||
    (stemExpansion sidx s).any (fun p => prefixMatches p e)

/-- Picks an element of maximal length. -/
def pickLongest : List JStr → Option JStr
  | [] => none
  | s :: rest =>
    match pickLongest rest with
    | none => some s
    | some t => if t.length < s.length then some s else some t

/-- The suffix stripping described by the specification (without the
empty-result guard the specification also asks for): strip the longest
listed suffix of the normalized word, or return it unchanged when no listed
suffix matches.  Second, spec-shaped definition used to state what the
stemmer actually computes. -/
def stemSpec (w : JStr) : JStr :=
  let nw := removePunct (jsTrim (jsToLower w))
  match pickLongest (SUFFIXES.filter (fun suf => suf.isSuffixOf nw)) with
  | none => nw
  | some suf => nw.take (nw.length - suf.length)

/-- Concrete catalog entry used for witnesses: a phone entry under
heading 8517. -/
def entryPhone : TNVEDCode :=
  { code := jstr "8517120000"
    name := jstr "Телефоны сотовые"
    description := jstr "Аппараты телефонные"
    category := jstr "Электроника"
    importDuty := 0
    vat := 20 }

/-- Concrete catalog entry whose description contains the bare code
fragment 8703 while its title stems do not. -/
def entryDesc8703 : TNVEDCode :=
  { code := jstr "9999999999"
    name := jstr "Изделие"
    description := jstr "Код 8703 прочее"
    category := jstr "Разное"
    importDuty := 5
    vat := 20 }

/-- Concrete catalog entry whose title carries two distinct stems. -/
def entryLaptop : TNVEDCode :=
  { code := jstr "8471300000"
    name := jstr "Ноутбук компьютер"
    description := jstr "Портативный"
    category := jstr "Электроника"
    importDuty := 0
    vat := 20 }

/-- Synonym table registering the alias `телефон` under prefix `85`. -/
def synPhone : List (JStr × List JStr) := [(jstr "85", [jstr "телефон"])]

/-- Synonym table registering the stop word `для` as an alias under
prefix `85`. -/
def synStop : List (JStr × List JStr) := [(jstr "85", [jstr "для"])]

/-- Synonym table routing the alias `телефон` to prefix `99`, under which
the catalog below has no entry. -/
def synMiss : List (JStr × List JStr) := [(jstr "99", [jstr "телефон"])]

/-- One-entry catalogs used by the witnesses and counterexamples. -/
def dbPhone : List TNVEDCode := [entryPhone]

/-- Catalog consisting of the 8703-description entry alone. -/
def dbDesc8703 : List TNVEDCode := [entryDesc8703]

/-- Catalog consisting of the laptop entry alone. -/
def dbLaptop : List TNVEDCode := [entryLaptop]

theorem foldl_preserve_mem {α β : Type} {P : β → Prop} (f : β → α → β) :
    ∀ (l : List α), (∀ b a, a ∈ l → P b → P (f b a)) → ∀ b, P b → P (l.foldl f b) := by
  intro l
  induction l with
  | nil => exact fun _ _ hb => hb
  | cons a l ih =>
    intro hf b hb
    exact ih (fun b2 a2 ha2 hb2 => hf b2 a2 (List.mem_cons_of_mem _ ha2) hb2) (f b a)
      (hf b a (List.mem_cons_self _ _) hb)

theorem foldl_establish_mem {α β : Type} {P : β → Prop} (f : β → α → β) :
    ∀ (l : List α), (∀ b a, a ∈ l → P b → P (f b a)) → ∀ {a : α}, a ∈ l →
      (∀ b, P (f b a)) → ∀ b, P (l.foldl f b) := by
  intro l
  induction l with
  | nil => intro _ a ha; exact absurd ha (List.not_mem_nil a)
  | cons a2 l ih =>
    intro hf a ha hstep b
    have hftail : ∀ b2 a3, a3 ∈ l → P b2 → P (f b2 a3) :=
      fun b2 a3 ha3 hb2 => hf b2 a3 (List.mem_cons_of_mem _ ha3) hb2
    rcases List.mem_cons.mp ha with rfl | hmem
    · exact foldl_preserve_mem f l hftail (f b a) (hstep b)
    · exact ih hftail hmem hstep (f b a2)

theorem mapGet_mapPush {β : Type} (k : JStr) (v : β) :
    ∀ (m : List (JStr × List β)) (k2 : JStr),
      mapGet (mapPush m k v) k2 =
        if k2 = k then some (((mapGet m k).getD []) ++ [v]) else mapGet m k2 := by
  intro m
  induction m with
  | nil =>
    intro k2
    by_cases h : k2 = k
    · simp [mapPush, mapGet, h]
    · simp [mapPush, mapGet, h, Ne.symm h]
  | cons kv rest ih =>
    intro k2
    obtain ⟨k3, vs⟩ := kv
    by_cases h3 : k3 = k
    · subst h3
      by_cases h2 : k2 = k3
      · subst h2
        simp [mapPush, mapGet]
      · simp [mapPush, mapGet, h2, Ne.symm h2]
    · by_cases h2 : k2 = k3
      · subst h2
        simp [mapPush, mapGet, h3, Ne.symm h3]
      · simp [mapPush, mapGet, h3, h2, Ne.symm h2, ih k2]

theorem mapGet_mapAdd (k : JStr) (w : ℚ) :
    ∀ (m : List (JStr × ℚ)) (k2 : JStr),
      mapGet (mapAdd m k w) k2 =
        if k2 = k then some (((mapGet m k).getD 0) + w) else mapGet m k2 := by
  intro m
  induction m with
  | nil =>
    intro k2
    by_cases h : k2 = k
    · simp [mapAdd, mapGet, h]
    · simp [mapAdd, mapGet, h, Ne.symm h]
  | cons kv rest ih =>
    intro k2
    obtain ⟨k3, x⟩ := kv
    by_cases h3 : k3 = k
    · subst h3
      by_cases h2 : k2 = k3
      · subst h2
        simp [mapAdd, mapGet]
      · simp [mapAdd, mapGet, h2, Ne.symm h2]
    · by_cases h2 : k2 = k3
      · subst h2
        simp [mapAdd, mapGet, h3, Ne.symm h3]
      · simp [mapAdd, mapGet, h3, h2, Ne.symm h2, ih k2]

theorem mapGet_mem {β : Type} (k : JStr) (v : β) :
    ∀ (m : List (JStr × β)), mapGet m k = some v → (k, v) ∈ m := by
  intro m
  induction m with
  | nil => intro h; simp [mapGet] at h
  | cons kv rest ih =>
    obtain ⟨k2, v2⟩ := kv
    intro h
    by_cases h2 : k2 = k
    · subst h2
      simp [mapGet] at h
      simp [h]
    · simp [mapGet, h2] at h
      exact List.mem_cons_of_mem _ (ih h)

theorem mem_setAdd_left {s : List Nat} {i : Nat} (j : Nat) (h : i ∈ s) :
    i ∈ setAdd s j := by
  by_cases h2 : j ∈ s <;> simp [setAdd, h2, h]

theorem mem_setAdd_self (s : List Nat) (i : Nat) : i ∈ setAdd s i := by
  by_cases h : i ∈ s <;> simp [setAdd, h]

theorem mem_setAddAll_left {i : Nat} :
    ∀ (l : List Nat) (s : List Nat), i ∈ s → i ∈ setAddAll s l := by
  intro l
  induction l with
  | nil => exact fun s h => h
  | cons j l ih => exact fun s h => ih (setAdd s j) (mem_setAdd_left j h)

theorem mem_setAddAll_right {i : Nat} :
    ∀ (l : List Nat) (s : List Nat), i ∈ l → i ∈ setAddAll s l := by
  intro l
  induction l with
  | nil => intro s h; exact absurd h (List.not_mem_nil i)
  | cons j l ih =>
    intro s h
    rcases List.mem_cons.mp h with rfl | hmem
    · exact mem_setAddAll_left l (setAdd s i) (mem_setAdd_self s i)
    · exact ih (setAdd s j) hmem

theorem mem_setAdd_elim {s : List Nat} {i j : Nat} (h : i ∈ setAdd s j) :
    i ∈ s ∨ i = j := by
  by_cases h2 : j ∈ s
  · simp [setAdd, h2] at h
    exact Or.inl h
  · simp [setAdd, h2] at h
    exact h

theorem mem_setAddAll_elim {i : Nat} :
    ∀ (l : List Nat) (s : List Nat), i ∈ setAddAll s l → i ∈ s ∨ i ∈ l := by
  intro l
  induction l with
  | nil => exact fun s h => Or.inl h
  | cons j l ih =>
    intro s h
    rcases ih (setAdd s j) h with h2 | h2
    · rcases mem_setAdd_elim h2 with h3 | h3
      · exact Or.inl h3
      · exact Or.inr (by simp [h3])
    · exact Or.inr (List.mem_cons_of_mem _ h2)

theorem dedupFirst_subset {x : JStr} :
    ∀ (l : List JStr) (seen : List JStr), x ∈ dedupFirst l seen → x ∈ l := by
  intro l
  induction l with
  | nil => intro seen h; simp [dedupFirst] at h
  | cons y l ih =>
    intro seen h
    unfold dedupFirst at h
    split at h
    · exact List.mem_cons_of_mem _ (ih _ h)
    · rcases List.mem_cons.mp h with rfl | hmem
      · exact List.mem_cons_self _ _
      · exact List.mem_cons_of_mem _ (ih _ hmem)

theorem isWs_lowerCp (n : Nat) : isWs (lowerCp n) = isWs n := by
  unfold lowerCp
  split
  · next h =>
    unfold isWs
    rw [decide_eq_decide]
    omega
  · split
    · next h =>
      unfold isWs
      rw [decide_eq_decide]
      omega
    · split
      · next h =>
        unfold isWs
        rw [decide_eq_decide]
        omega
      · rfl

theorem jsTrim_jsToLower (s : JStr) : jsTrim (jsToLower s) = jsToLower (jsTrim s) := by
  have hcomp : (isWs ∘ lowerCp) = isWs := funext isWs_lowerCp
  unfold jsTrim jsToLower
  rw [List.dropWhile_map, hcomp, ← List.map_reverse, List.dropWhile_map, hcomp,
    ← List.map_reverse]

theorem dropWhile_nows {s : JStr} (h : ∀ c ∈ s, isWs c = false) :
    s.dropWhile isWs = s := by
  cases s with
  | nil => rfl
  | cons c t => simp [List.dropWhile_cons, h c (List.mem_cons_self c t)]

theorem jsTrim_nows {s : JStr} (h : ∀ c ∈ s, isWs c = false) : jsTrim s = s := by
  unfold jsTrim
  rw [dropWhile_nows h, dropWhile_nows (fun c hc => h c (List.mem_reverse.mp hc)),
    List.reverse_reverse]

theorem foldl_splitWsStep_nows :
    ∀ (s : JStr), (∀ c ∈ s, isWs c = false) → ∀ (done : List JStr) (acc : JStr),
      s.foldl splitWsStep (done, acc, false) = (done, s.reverse ++ acc, false) := by
  intro s
  induction s with
  | nil => intro _ done acc; rfl
  | cons c t ih =>
    intro h done acc
    have hc : isWs c = false := h c (List.mem_cons_self _ _)
    have ht := ih (fun d hd => h d (List.mem_cons_of_mem _ hd)) done (c :: acc)
    simp only [List.foldl_cons, splitWsStep, hc, Bool.false_eq_true, if_false, ht,
      List.reverse_cons, List.append_assoc, List.singleton_append]

theorem splitWs_nows {s : JStr} (h : ∀ c ∈ s, isWs c = false) : splitWs s = [s] := by
  unfold splitWs
  rw [foldl_splitWsStep_nows s h [] []]
  simp

theorem isPrefixOf_self (s : JStr) : s.isPrefixOf s = true := by
  induction s with
  | nil => rfl
  | cons c t ih => simp [List.isPrefixOf, ih]

theorem jsIncludes_refl (s : JStr) : jsIncludes s s = true := by
  cases s with
  | nil => rfl
  | cons c t => simp [jsIncludes, isPrefixOf_self]

theorem stemToPrefixes_complete (syn : List (JStr × List JStr)) (p : JStr)
    (terms : List JStr) (t : JStr) (hmem : (p, terms) ∈ syn) (ht : t ∈ terms)
    (hlen : ¬ (getStem (jsTrim (jsToLower t))).length < 2) :
    ∃ l, mapGet (buildStemToPrefixes syn) (getStem (jsTrim (jsToLower t))) = some l ∧
      p ∈ l := by
  set s := getStem (jsTrim (jsToLower t)) with hs
  have hpush : ∀ (m : List (JStr × List JStr)) (k v : JStr),
      (∃ l, mapGet m s = some l ∧ p ∈ l) →
      ∃ l, mapGet (mapPush m k v) s = some l ∧ p ∈ l := by
    intro m k v hpm
    obtain ⟨l, hget, hp⟩ := hpm
    by_cases hk : s = k
    · subst hk
      refine ⟨l ++ [v], ?_, List.mem_append_left _ hp⟩
      rw [mapGet_mapPush, if_pos rfl, hget]
      rfl
    · exact ⟨l, by rw [mapGet_mapPush, if_neg hk]; exact hget, hp⟩
  have hinner : ∀ (q : JStr) (m2 : List (JStr × List JStr)) (term : JStr),
      (∃ l, mapGet m2 s = some l ∧ p ∈ l) →
      ∃ l,
        mapGet
          (if (getStem (jsTrim (jsToLower term))).length < 2 then m2
           else mapPush m2 (getStem (jsTrim (jsToLower term))) q) s = some l ∧ p ∈ l := by
    intro q m2 term hpm
    split
    · exact hpm
    · exact hpush _ _ _ hpm
  unfold buildStemToPrefixes
  refine @foldl_establish_mem _ _ (fun m => ∃ l, mapGet m s = some l ∧ p ∈ l)
    (fun m pr => pr.2.foldl
      (fun m2 term =>
        let stem := getStem (jsTrim (jsToLower term))
        if stem.length < 2 then m2 else mapPush m2 stem pr.1) m)
    syn (fun m pr _ hpm => ?_) (p, terms) hmem (fun m => ?_) []
  · exact foldl_preserve_mem _ pr.2 (fun m2 term _ hpm2 => hinner pr.1 m2 term hpm2) m hpm
  · refine foldl_establish_mem _ terms (fun m2 term _ hpm2 => hinner p m2 term hpm2) ht
      (fun m2 => ?_) m
    show ∃ l, mapGet (if s.length < 2 then m2 else mapPush m2 s p) s = some l ∧ p ∈ l
    rw [if_neg hlen]
    exact ⟨(mapGet m2 s).getD [] ++ [p], by rw [mapGet_mapPush, if_pos rfl],
      List.mem_append_right _ (by simp)⟩

theorem postings_complete (items : List IndexedTNVED) (key : IndexedTNVED → JStr)
    (i : Nat) (it : IndexedTNVED) (hi : items[i]? = some it) :
    i ∈ (mapGet (items.enum.foldl (fun m p => mapPush m (key p.2) p.1) []) (key it)).getD [] := by
  have hmem : (i, it) ∈ items.enum := List.mem_enum_iff_getElem?.mpr hi
  refine @foldl_establish_mem _ _
    (fun m => i ∈ (mapGet m (key it)).getD [])
    (fun m p => mapPush m (key p.2) p.1) items.enum
    (fun m p _ hpm => ?_) (i, it) hmem (fun m => ?_) []
  · dsimp only at hpm ⊢
    by_cases hk : key it = key p.2
    · rw [mapGet_mapPush, if_pos hk]
      cases hmk : mapGet m (key it) with
      | none => rw [hmk] at hpm; simp at hpm
      | some l0 =>
        have hmk2 : mapGet m (key p.2) = some l0 := by rw [← hk]; exact hmk
        rw [hmk2]
        rw [hmk] at hpm
        simp only [Option.getD_some] at hpm ⊢
        exact List.mem_append_left _ hpm
    · rw [mapGet_mapPush, if_neg hk]
      exact hpm
  · dsimp only
    rw [mapGet_mapPush, if_pos rfl]
    simp

theorem byStem_sound (db : List TNVEDCode) (s : JStr) (l : List Nat)
    (hget : mapGet (buildSearchIndex db).byStem s = some l) :
    ∀ i ∈ l, ∃ it, (db.map indexItem)[i]? = some it ∧ s ∈ it.titleStems := by
  have main :
      ∀ s2 l2, mapGet (buildSearchIndex db).byStem s2 = some l2 →
        ∀ i2 ∈ l2, ∃ it, (db.map indexItem)[i2]? = some it ∧ s2 ∈ it.titleStems := by
    show (fun m => ∀ s2 l2, mapGet m s2 = some l2 →
        ∀ i2 ∈ l2, ∃ it, (db.map indexItem)[i2]? = some it ∧ s2 ∈ it.titleStems)
      (buildSearchIndex db).byStem
    have hpushP : ∀ (m : List (JStr × List Nat)) (k : JStr) (v : Nat),
        (∀ s2 l2, mapGet m s2 = some l2 →
          ∀ i2 ∈ l2, ∃ it, (db.map indexItem)[i2]? = some it ∧ s2 ∈ it.titleStems) →
        (∃ it, (db.map indexItem)[v]? = some it ∧ k ∈ it.titleStems) →
        ∀ s2 l2, mapGet (mapPush m k v) s2 = some l2 →
          ∀ i2 ∈ l2, ∃ it, (db.map indexItem)[i2]? = some it ∧ s2 ∈ it.titleStems := by
      intro m k v hpm hq s2 l2 hget2 i2 hi2
      rw [mapGet_mapPush] at hget2
      by_cases hk : s2 = k
      · rw [if_pos hk] at hget2
        have hl2 := Option.some_injective _ hget2
        rw [← hl2] at hi2
        rcases List.mem_append.mp hi2 with h2 | h2
        · cases hmk : mapGet m k with
          | none => rw [hmk] at h2; simp at h2
          | some l0 =>
            rw [hmk] at h2
            simp only [Option.getD_some] at h2
            have hmk2 : mapGet m s2 = some l0 := by rw [hk]; exact hmk
            exact hpm s2 l0 hmk2 i2 h2
        · obtain rfl : i2 = v := by simpa using h2
          rw [hk]
          exact hq
      · rw [if_neg hk] at hget2
        exact hpm s2 l2 hget2 i2 hi2
    show (fun m => ∀ s2 l2, mapGet m s2 = some l2 →
        ∀ i2 ∈ l2, ∃ it, (db.map indexItem)[i2]? = some it ∧ s2 ∈ it.titleStems)
      ((db.map indexItem).enum.foldl (fun m p => pushTitleStems m p.1 p.2.titleStems) [])
    refine @foldl_preserve_mem _ _
      (fun m => ∀ s2 l2, mapGet m s2 = some l2 →
        ∀ i2 ∈ l2, ∃ it, (db.map indexItem)[i2]? = some it ∧ s2 ∈ it.titleStems)
      (fun m p => pushTitleStems m p.1 p.2.titleStems) (db.map indexItem).enum
      (fun m p hp hpm => ?_) [] (by intro s2 l2 h; simp [mapGet] at h)
    have hip : (db.map indexItem)[p.1]? = some p.2 := List.mem_enum_iff_getElem?.mp hp
    dsimp only at hpm ⊢
    unfold pushTitleStems
    refine @foldl_preserve_mem _ _
      (fun m2 => ∀ s2 l2, mapGet m2 s2 = some l2 →
        ∀ i2 ∈ l2, ∃ it, (db.map indexItem)[i2]? = some it ∧ s2 ∈ it.titleStems)
      (fun m2 s2 => if s2.length < 3 then m2 else mapPush m2 s2 p.1)
      (dedupFirst p.2.titleStems []) (fun m2 s2 hs2 hpm2 => ?_) m hpm
    dsimp only at hpm2 ⊢
    split
    · exact hpm2
    · exact hpushP m2 s2 p.1 hpm2 ⟨p.2, hip, dedupFirst_subset _ _ hs2⟩
  exact main s l hget

/-- The stored weight of a code prefix, with `0` for absent keys
(`codePrefixWeights.get(prefix) || 0`). -/
def wGet (m : List (JStr × ℚ)) (k : JStr) : ℚ := (mapGet m k).getD 0

theorem wGet_mapAdd (m : List (JStr × ℚ)) (k : JStr) (w : ℚ) (k2 : JStr) :
    wGet (mapAdd m k w) k2 = if k2 = k then wGet m k + w else wGet m k2 := by
  unfold wGet
  rw [mapGet_mapAdd]
  split <;> simp

theorem mapAdd_vals_nonneg {m : List (JStr × ℚ)} {w : ℚ}
    (hm : ∀ kv ∈ m, 0 ≤ kv.2) (hw : 0 ≤ w) (k : JStr) :
    ∀ kv ∈ mapAdd m k w, 0 ≤ kv.2 := by
  induction m with
  | nil => intro kv hkv; simp [mapAdd] at hkv; simp [hkv, hw]
  | cons kv0 rest ih =>
    intro kv hkv
    obtain ⟨k2, x⟩ := kv0
    have hx : 0 ≤ x := hm (k2, x) (List.mem_cons_self _ _)
    have hrest : ∀ kv2 ∈ rest, 0 ≤ kv2.2 := fun kv2 h2 => hm kv2 (List.mem_cons_of_mem _ h2)
    by_cases h2 : k2 = k
    · rw [mapAdd, if_pos (by simp [h2])] at hkv
      rcases List.mem_cons.mp hkv with rfl | hmem
      · exact add_nonneg hx hw
      · exact hrest kv hmem
    · rw [mapAdd, if_neg (by simp [h2])] at hkv
      rcases List.mem_cons.mp hkv with rfl | hmem
      · exact hx
      · exact ih hrest kv hmem

theorem foldl_mapAdd_nonneg (c : ℚ) (hc : 0 ≤ c) :
    ∀ (l : List JStr) (m : List (JStr × ℚ)), (∀ kv ∈ m, 0 ≤ kv.2) →
      ∀ kv ∈ l.foldl (fun m2 p => mapAdd m2 p c) m, 0 ≤ kv.2 := by
  intro l
  induction l with
  | nil => exact fun m hm => hm
  | cons p l ih => exact fun m hm => ih (mapAdd m p c) (mapAdd_vals_nonneg hm hc p)

theorem fuzzyStep_nonneg (sidx : SynIndex) (imp : ℚ) (qStem : JStr) (himp : 0 ≤ imp)
    (m : List (JStr × ℚ)) (hm : ∀ kv ∈ m, 0 ≤ kv.2) :
    ∀ kv ∈ fuzzyStep sidx imp qStem m, 0 ≤ kv.2 := by
  unfold fuzzyStep
  refine @foldl_preserve_mem _ _ (fun m2 => ∀ kv ∈ m2, 0 ≤ kv.2) _ _
    (fun m2 mapStem _ hm2 => ?_) m hm
  dsimp only
  split
  · split
    · exact hm2
    · next prefixList _ =>
      refine foldl_mapAdd_nonneg _ ?_ prefixList m2 hm2
      have : (0 : ℚ) ≤ (if mapStem == qStem then (1.2 : ℚ) else 0.8) := by
        split <;> norm_num
      positivity
  · exact hm2

theorem stemWeights_nonneg (sidx : SynIndex) (qIdx : Nat) (qStem : JStr)
    (m : List (JStr × ℚ)) (hm : ∀ kv ∈ m, 0 ≤ kv.2) :
    ∀ kv ∈ stemWeights sidx m qIdx qStem, 0 ≤ kv.2 := by
  unfold stemWeights
  have himp : (0 : ℚ) ≤ (if qIdx == 0 then (2.5 : ℚ) else 1.0) := by
    split <;> norm_num
  cases mapGet sidx.stemToPrefixes qStem with
  | none => exact fuzzyStep_nonneg sidx _ qStem himp m hm
  | some direct =>
    dsimp only
    split
    · exact fuzzyStep_nonneg sidx _ qStem himp m hm
    · refine foldl_mapAdd_nonneg _ ?_ direct m hm
      positivity

theorem codePrefixWeights_nonneg (sidx : SynIndex) (stems : List JStr) :
    ∀ kv ∈ codePrefixWeights sidx stems, 0 ≤ kv.2 := by
  unfold codePrefixWeights
  refine @foldl_preserve_mem _ _ (fun m : List (JStr × ℚ) => ∀ kv ∈ m, 0 ≤ kv.2) _ _
    (fun m p _ hm => ?_) [] (fun kv hkv => absurd hkv (List.not_mem_nil kv))
  exact stemWeights_nonneg sidx p.1 p.2 m hm

theorem wGet_foldl_mapAdd_ge (c : ℚ) (hc : 0 ≤ c) (k : JStr) :
    ∀ (l : List JStr) (m : List (JStr × ℚ)),
      wGet m k ≤ wGet (l.foldl (fun m2 p => mapAdd m2 p c) m) k := by
  intro l
  induction l with
  | nil => exact fun m => le_refl _
  | cons p l ih =>
    intro m
    refine le_trans ?_ (ih (mapAdd m p c))
    rw [wGet_mapAdd]
    split
    · next h => rw [h]; linarith
    · exact le_refl _

theorem wGet_foldl_mapAdd_mem (c : ℚ) (hc : 0 ≤ c) {k : JStr} :
    ∀ (l : List JStr) (m : List (JStr × ℚ)), k ∈ l →
      wGet m k + c ≤ wGet (l.foldl (fun m2 p => mapAdd m2 p c) m) k := by
  intro l
  induction l with
  | nil => intro m h; exact absurd h (List.not_mem_nil k)
  | cons p l ih =>
    intro m h
    rcases List.mem_cons.mp h with rfl | hmem
    · refine le_trans ?_ (wGet_foldl_mapAdd_ge c hc k l (mapAdd m k c))
      rw [wGet_mapAdd, if_pos rfl]
    · refine le_trans ?_ (ih (mapAdd m p c) hmem)
      rw [wGet_mapAdd]
      split
      · next h2 => rw [h2]; linarith
      · exact le_refl _

theorem mem_of_wGet_pos {m : List (JStr × ℚ)} {k : JStr} (h : 0 < wGet m k) :
    (k, wGet m k) ∈ m := by
  unfold wGet at h ⊢
  cases hm : mapGet m k with
  | none => rw [hm] at h; simp at h
  | some v => simpa using mapGet_mem k v m hm

theorem prefixFold_score_ge (it : IndexedTNVED) :
    ∀ (l : List (JStr × ℚ)) (st : ℚ × Bool), (∀ kv ∈ l, 0 ≤ kv.2) →
      st.1 ≤ (prefixFold it l st).1 := by
  intro l
  induction l with
  | nil => exact fun st _ => le_refl _
  | cons pw rest ih =>
    intro st hval
    obtain ⟨p, w⟩ := pw
    obtain ⟨score, subj⟩ := st
    have hw : 0 ≤ w := hval (p, w) (List.mem_cons_self _ _)
    have hrest := fun st2 => ih st2 (fun kv h => hval kv (List.mem_cons_of_mem _ h))
    show score ≤ (prefixFold it ((p, w) :: rest) (score, subj)).1
    simp only [prefixFold]
    split
    · exact le_trans (le_add_of_nonneg_right hw) (hrest (score + w, true))
    · split
      · exact le_trans (le_add_of_nonneg_right hw) (hrest (score + w, true))
      · split
        · exact le_trans (le_add_of_nonneg_right hw) (hrest (score + w, true))
        · exact hrest (score, subj)

theorem prefixFold_subj_true (it : IndexedTNVED) :
    ∀ (l : List (JStr × ℚ)) (st : ℚ × Bool), st.2 = true →
      (prefixFold it l st).2 = true := by
  intro l
  induction l with
  | nil => exact fun st h => h
  | cons pw rest ih =>
    intro st h
    obtain ⟨p, w⟩ := pw
    obtain ⟨score, subj⟩ := st
    have h2 : subj = true := h
    subst h2
    show (prefixFold it ((p, w) :: rest) (score, true)).2 = true
    simp only [prefixFold]
    split
    · exact ih (score + w, true) rfl
    · split
      · exact ih (score + w, true) rfl
      · split
        · exact ih (score + w, true) rfl
        · exact ih (score, true) rfl

theorem prefixFold_hit (it : IndexedTNVED) {p : JStr} {w : ℚ}
    (hmatch :
      ((p.length == 2 && it.code2 == p) ||
        (p.length == 4 && it.code4 == p) ||
        (!(p.length == 2) && !(p.length == 4) && p.isPrefixOf it.item.code)) = true) :
    ∀ (l : List (JStr × ℚ)) (st : ℚ × Bool), (p, w) ∈ l → (∀ kv ∈ l, 0 ≤ kv.2) →
      st.1 + w ≤ (prefixFold it l st).1 ∧ (prefixFold it l st).2 = true := by
  intro l
  induction l with
  | nil => intro st h; exact absurd h (List.not_mem_nil _)
  | cons pw rest ih =>
    intro st hmem hval
    obtain ⟨q, u⟩ := pw
    obtain ⟨score, subj⟩ := st
    have hu : 0 ≤ u := hval (q, u) (List.mem_cons_self _ _)
    have hvrest : ∀ kv ∈ rest, 0 ≤ kv.2 := fun kv h => hval kv (List.mem_cons_of_mem _ h)
    rcases List.mem_cons.mp hmem with heq | hmem2
    · rw [Prod.mk.injEq] at heq
      obtain ⟨rfl, rfl⟩ := heq
      show score + w ≤ (prefixFold it ((p, w) :: rest) (score, subj)).1 ∧
        (prefixFold it ((p, w) :: rest) (score, subj)).2 = true
      simp only [prefixFold]
      simp only [Bool.or_eq_true] at hmatch
      by_cases hc1 : (p.length == 2 && it.code2 == p) = true
      · rw [if_pos hc1]
        exact ⟨prefixFold_score_ge it rest _ hvrest, prefixFold_subj_true it rest _ rfl⟩
      · rw [if_neg hc1]
        by_cases hc2 : (p.length == 4 && it.code4 == p) = true
        · rw [if_pos hc2]
          exact ⟨prefixFold_score_ge it rest _ hvrest, prefixFold_subj_true it rest _ rfl⟩
        · rw [if_neg hc2]
          by_cases hc3 : (!(p.length == 2) && !(p.length == 4) && p.isPrefixOf it.item.code) = true
          · rw [if_pos hc3]
            exact ⟨prefixFold_score_ge it rest _ hvrest, prefixFold_subj_true it rest _ rfl⟩
          · rcases hmatch with (h | h) | h
            · exact absurd h hc1
            · exact absurd h hc2
            · exact absurd h hc3
    · show score + w ≤ (prefixFold it ((q, u) :: rest) (score, subj)).1 ∧
        (prefixFold it ((q, u) :: rest) (score, subj)).2 = true
      simp only [prefixFold]
      split
      · have h := ih (score + u, true) hmem2 hvrest
        have h1 : score + u + w ≤ (prefixFold it rest (score + u, true)).1 := h.1
        exact ⟨by linarith, h.2⟩
      · split
        · have h := ih (score + u, true) hmem2 hvrest
          have h1 : score + u + w ≤ (prefixFold it rest (score + u, true)).1 := h.1
          exact ⟨by linarith, h.2⟩
        · split
          · have h := ih (score + u, true) hmem2 hvrest
            have h1 : score + u + w ≤ (prefixFold it rest (score + u, true)).1 := h.1
            exact ⟨by linarith, h.2⟩
          · exact ih (score, subj) hmem2 hvrest

theorem textFold_score_ge (it : IndexedTNVED) :
    ∀ (stems : List JStr) (qIdx : Nat) (st : ℚ × Bool × Nat),
      st.1 ≤ (textFold it stems qIdx st).1 := by
  intro stems
  induction stems with
  | nil => exact fun _ _ => le_refl _
  | cons s rest ih =>
    intro qIdx st
    obtain ⟨score, subj, matched⟩ := st
    show score ≤ (textFold it (s :: rest) qIdx (score, subj, matched)).1
    simp only [textFold]
    have hbonus : (0 : ℚ) ≤ (if qIdx == 0 then (4000 : ℚ) else 1500) := by
      split <;> norm_num
    split
    · exact le_trans (le_add_of_nonneg_right hbonus)
        (ih (qIdx + 1) (score + _, true, matched + 1))
    · split
      · exact le_trans (le_add_of_nonneg_right (by norm_num))
          (ih (qIdx + 1) (score + 100, subj, matched + 1))
      · exact ih (qIdx + 1) (score, subj, matched)

theorem textFold_subj_true (it : IndexedTNVED) :
    ∀ (stems : List JStr) (qIdx : Nat) (st : ℚ × Bool × Nat), st.2.1 = true →
      (textFold it stems qIdx st).2.1 = true := by
  intro stems
  induction stems with
  | nil => exact fun _ _ h => h
  | cons s rest ih =>
    intro qIdx st h
    obtain ⟨score, subj, matched⟩ := st
    have h2 : subj = true := h
    subst h2
    show (textFold it (s :: rest) qIdx (score, true, matched)).2.1 = true
    simp only [textFold]
    split
    · exact ih (qIdx + 1) _ rfl
    · split
      · exact ih (qIdx + 1) _ rfl
      · exact ih (qIdx + 1) _ rfl

theorem textFold_matched (it : IndexedTNVED) :
    ∀ (stems : List JStr) (qIdx : Nat) (st : ℚ × Bool × Nat),
      (textFold it stems qIdx st).2.2 =
        st.2.2 + (stems.filter (fun s => titleHit it s || descHit it s)).length := by
  intro stems
  induction stems with
  | nil => intro qIdx st; simp [textFold]
  | cons s rest ih =>
    intro qIdx st
    obtain ⟨score, subj, matched⟩ := st
    show (textFold it (s :: rest) qIdx (score, subj, matched)).2.2 =
      matched + ((s :: rest).filter (fun s => titleHit it s || descHit it s)).length
    simp only [textFold]
    by_cases h1 : titleHit it s = true
    · rw [if_pos h1, ih]
      simp [List.filter_cons, h1]
      omega
    · rw [if_neg h1]
      by_cases h2 : descHit it s = true
      · rw [if_pos h2, ih]
        simp [List.filter_cons, h1, h2]
        omega
      · rw [if_neg h2, ih]
        simp [List.filter_cons, h1, h2]

theorem insertDesc_perm (x : TNVEDCode × ℚ) :
    ∀ (l : List (TNVEDCode × ℚ)), (insertDesc x l).Perm (x :: l) := by
  intro l
  induction l with
  | nil => exact List.Perm.refl _
  | cons y rest ih =>
    show (insertDesc x (y :: rest)).Perm (x :: y :: rest)
    simp only [insertDesc]
    split
    · exact List.Perm.refl _
    · exact List.Perm.trans (List.Perm.cons y ih) (List.Perm.swap x y rest)

theorem sortDesc_perm : ∀ (l : List (TNVEDCode × ℚ)), (sortDesc l).Perm l := by
  intro l
  induction l with
  | nil => exact List.Perm.refl _
  | cons x rest ih =>
    exact List.Perm.trans (insertDesc_perm x (sortDesc rest)) (List.Perm.cons x ih)

theorem mem_sortDesc {a : TNVEDCode × ℚ} {l : List (TNVEDCode × ℚ)} :
    a ∈ sortDesc l ↔ a ∈ l := (sortDesc_perm l).mem_iff

theorem length_sortDesc (l : List (TNVEDCode × ℚ)) :
    (sortDesc l).length = l.length := (sortDesc_perm l).length_eq

theorem handleSearch_eq_main {sidx : SynIndex} {idx : SearchIndex} {q : JStr}
    (h1 : ¬ (queryTrimmed q).length < 2) (h2 : ¬ (queryWords q).isEmpty = true)
    (h3 : ¬ (queryStems q).isEmpty = true) :
    handleSearchLocal sidx idx q =
      ((sortDesc (relevantResults sidx idx q)).map Prod.fst).take 30 := by
  unfold handleSearchLocal
  rw [if_neg h1, if_neg h2, if_neg h3]

theorem mem_handleSearch_elim {sidx : SynIndex} {idx : SearchIndex} {q : JStr}
    {e : TNVEDCode} (he : e ∈ handleSearchLocal sidx idx q) :
    ∃ sc, (e, sc) ∈ relevantResults sidx idx q := by
  unfold handleSearchLocal at he
  split at he
  · exact absurd he (List.not_mem_nil e)
  · split at he
    · exact absurd he (List.not_mem_nil e)
    · split at he
      · exact absurd he (List.not_mem_nil e)
      · have he2 := List.take_subset _ _ he
        obtain ⟨pair, hpair, hfst⟩ := List.mem_map.mp he2
        obtain ⟨ee, sc⟩ := pair
        cases hfst
        exact ⟨sc, mem_sortDesc.mp hpair⟩

theorem mem_relevant_elim {sidx : SynIndex} {idx : SearchIndex} {q : JStr}
    {e : TNVEDCode} {sc : ℚ} (h : (e, sc) ∈ relevantResults sidx idx q) :
    ∃ it, it ∈ idx.items ∧ it.item = e ∧
      sc = (scoreEntry (codePrefixWeights sidx (queryStems q)) (queryStems q) it).1 ∧
      isRelevant (queryStems q)
        (scoreEntry (codePrefixWeights sidx (queryStems q)) (queryStems q) it) = true := by
  unfold relevantResults at h
  obtain ⟨i, hi, hf⟩ := List.mem_filterMap.mp h
  obtain ⟨it, hit, hsf⟩ := Option.bind_eq_some.mp hf
  unfold scoreFilter at hsf
  split at hsf
  · next hrel =>
    rw [Option.some.injEq, Prod.mk.injEq] at hsf
    exact ⟨it, List.mem_iff_getElem?.mpr ⟨i, hit⟩, hsf.1, hsf.2.symm, hrel⟩
  · exact absurd hsf (by simp)

theorem isRelevant_single {stems : List JStr} {st : ℚ × Bool × Nat}
    (h1 : stems.length = 1) (h : isRelevant stems st = true) :
    st.2.1 = true ∧ 800 < st.1 := by
  unfold isRelevant at h
  rw [h1] at h
  simpa using h

theorem isRelevant_multi {stems : List JStr} {st : ℚ × Bool × Nat}
    (h2 : 2 ≤ stems.length) (h : isRelevant stems st = true) :
    st.2.1 = true ∧ (0.4 : ℚ) ≤ (st.2.2 : ℚ) / (stems.length : ℚ) := by
  unfold isRelevant at h
  have hne : (stems.length == 1) = false := by
    simp only [beq_eq_false_iff_ne, ne_eq]
    omega
  rw [hne] at h
  simpa using h

theorem density_count {matched n : Nat} (hn : 0 < n)
    (h : (0.4 : ℚ) ≤ (matched : ℚ) / (n : ℚ)) : 2 * n ≤ 5 * matched := by
  have hnq : (0 : ℚ) < (n : ℚ) := by exact_mod_cast hn
  rw [le_div_iff₀ hnq] at h
  have h2 : (2 : ℚ) * n ≤ 5 * matched := by nlinarith
  exact_mod_cast h2

theorem scoreEntry_matched (weights : List (JStr × ℚ)) (stems : List JStr)
    (it : IndexedTNVED) :
    (scoreEntry weights stems it).2.2 =
      (stems.filter (fun s => titleHit it s || descHit it s)).length := by
  simp only [scoreEntry]
  rw [textFold_matched]
  simp

theorem length_filter_mono {α : Type} {p q : α → Bool} :
    ∀ (l : List α), (∀ a ∈ l, p a = true → q a = true) →
      (l.filter p).length ≤ (l.filter q).length := by
  intro l
  induction l with
  | nil => intro _; simp
  | cons a l ih =>
    intro h
    have htail := ih (fun a2 ha2 hp2 => h a2 (List.mem_cons_of_mem _ ha2) hp2)
    simp only [List.filter_cons]
    by_cases hp : p a = true
    · rw [if_pos hp, if_pos (h a (List.mem_cons_self _ _) hp)]
      simpa using htail
    · rw [if_neg hp]
      split
      · exact Nat.le_succ_of_le htail
      · exact htail

theorem items_getElem_indexItem {db : List TNVEDCode} {i : Nat} {it : IndexedTNVED}
    (h : (db.map indexItem)[i]? = some it) : ∃ e0, db[i]? = some e0 ∧ it = indexItem e0 := by
  rw [List.getElem?_map] at h
  cases hdb : db[i]? with
  | none => rw [hdb] at h; simp at h
  | some e0 =>
    rw [hdb] at h
    simp at h
    exact ⟨e0, rfl, h.symm⟩

theorem items_mem_indexItem {db : List TNVEDCode} {it : IndexedTNVED}
    (h : it ∈ db.map indexItem) : ∃ e0, e0 ∈ db ∧ it = indexItem e0 := by
  obtain ⟨e0, he0, heq⟩ := List.mem_map.mp h
  exact ⟨e0, he0, heq.symm⟩

/-- C5: for every synonym table, catalog and query string, the search
pipeline terminates normally (it is a total function of its inputs) and
returns a possibly empty list each element of which is an entry of the
catalog; no exception path exists for empty, whitespace-only,
punctuation-only, stop-word-only or otherwise malformed input. -/
theorem C5_never_throws (syn : List (JStr × List JStr)) (db : List TNVEDCode)
    (q : JStr) :
    ∀ e ∈ handleSearchLocal (buildSynIndex syn) (buildSearchIndex db) q, e ∈ db := by
  intro e he
  obtain ⟨sc, hrel⟩ := mem_handleSearch_elim he
  obtain ⟨it, hit, hitem, _, _⟩ := mem_relevant_elim hrel
  have hitems : it ∈ db.map indexItem := hit
  obtain ⟨e0, he0, rfl⟩ := items_mem_indexItem hitems
  have he0e : e0 = e := hitem
  exact he0e ▸ he0

/-- C5 witness: the phone catalog search returns the phone entry, which is
in the catalog. -/
theorem C5_witness : entryPhone ∈ dbPhone :=
  C5_never_throws synPhone dbPhone (jstr "телефон") entryPhone (by decide)

/-- C6: a query that is empty, whitespace-only or shorter than 2 characters
after trimming, or whose words are all stop words or shorter than 2
characters, or whose surviving stems are all shorter than 2 characters,
yields the empty result via the early returns, before any catalog entry is
scored. -/
theorem C6_degenerate_empty (syn : List (JStr × List JStr)) (db : List TNVEDCode)
    (q : JStr)
    (h : (queryTrimmed q).length < 2 ∨ queryWords q = [] ∨ queryStems q = []) :
    handleSearchLocal (buildSynIndex syn) (buildSearchIndex db) q = [] := by
  unfold handleSearchLocal
  rcases h with h | h | h
  · rw [if_pos h]
  · split
    · rfl
    · rw [if_pos (by simp [h])]
  · split
    · rfl
    · split
      · rfl
      · rw [if_pos (by simp [h])]

/-- C6 witness: the stop-word query `для` returns the empty list. -/
theorem C6_witness :
    handleSearchLocal (buildSynIndex synPhone) (buildSearchIndex dbPhone)
      (jstr "для") = [] :=
  C6_degenerate_empty synPhone dbPhone (jstr "для") (Or.inr (Or.inl (by decide)))

/-- C7: for every synonym table, catalog and query, the returned list has at
most 30 entries (the `slice(0, 30)` cap). -/
theorem C7_result_capped (syn : List (JStr × List JStr)) (db : List TNVEDCode)
    (q : JStr) :
    (handleSearchLocal (buildSynIndex syn) (buildSearchIndex db) q).length ≤ 30 := by
  unfold handleSearchLocal
  split
  · simp
  · split
    · simp
    · split
      · simp
      · rw [List.length_take]
        exact Nat.min_le_left _ _

/-- C8: for a query with exactly one stem, every returned entry carries a
raw score, accumulated from its prefix and text signals, strictly above the
single-term floor of 800. -/
theorem C8_single_stem_floor (syn : List (JStr × List JStr)) (db : List TNVEDCode)
    (q : JStr) (h1 : (queryStems q).length = 1) :
    ∀ e ∈ handleSearchLocal (buildSynIndex syn) (buildSearchIndex db) q,
      ∃ sc, (e, sc) ∈ relevantResults (buildSynIndex syn) (buildSearchIndex db) q ∧
        800 < sc := by
  intro e he
  obtain ⟨sc, hrel⟩ := mem_handleSearch_elim he
  obtain ⟨it, _, _, hsc, hrelv⟩ := mem_relevant_elim hrel
  have hfloor := (isRelevant_single h1 hrelv).2
  exact ⟨sc, hrel, by rw [hsc]; exact hfloor⟩

/-- C8 witness: the single-stem phone query returns the phone entry with a
relevant score above the floor. -/
theorem C8_witness :
    ∃ sc, (entryPhone, sc) ∈ relevantResults (buildSynIndex synPhone)
      (buildSearchIndex dbPhone) (jstr "телефон") ∧ 800 < sc :=
  C8_single_stem_floor synPhone dbPhone (jstr "телефон") (by decide) entryPhone
    (by decide)

/-- C9: for a query with at least two stems, every returned entry has some
query stem matching its title stems (containment either way) or occurring
inside its lowercase description; a candidate whose only signal is a
code-prefix weight match is never returned, since the prefix signal does
not increment the matched-stem count. -/
theorem C9_multi_stem_text_required (syn : List (JStr × List JStr))
    (db : List TNVEDCode) (q : JStr) (h2 : 2 ≤ (queryStems q).length) :
    ∀ e ∈ handleSearchLocal (buildSynIndex syn) (buildSearchIndex db) q,
      ∃ s ∈ queryStems q, entryTitleMatch e s = true ∨ entryDescMatch e s = true := by
  intro e he
  obtain ⟨sc, hrel⟩ := mem_handleSearch_elim he
  obtain ⟨it, hit, hitem, _, hrelv⟩ := mem_relevant_elim hrel
  obtain ⟨_, hdens⟩ := isRelevant_multi h2 hrelv
  have hn : 0 < (queryStems q).length := by omega
  have hcount := density_count hn hdens
  rw [scoreEntry_matched] at hcount
  have hpos : 0 <
      ((queryStems q).filter (fun s => titleHit it s || descHit it s)).length := by
    omega
  obtain ⟨s, hs⟩ := List.exists_mem_of_length_pos hpos
  have hsmem := List.mem_filter.mp hs
  have hitems : it ∈ db.map indexItem := hit
  obtain ⟨e0, he0, rfl⟩ := items_mem_indexItem hitems
  have he0e : e0 = e := hitem
  subst he0e
  refine ⟨s, hsmem.1, ?_⟩
  have hor : titleHit (indexItem e0) s = true ∨ descHit (indexItem e0) s = true := by
    simpa using hsmem.2
  unfold entryTitleMatch entryDescMatch
  exact hor

/-- C9 witness: for the two-stem laptop query, the returned laptop entry has
a stem matching its title or description. -/
theorem C9_witness :
    ∃ s ∈ queryStems (jstr "ноутбук компьютер"),
      entryTitleMatch entryLaptop s = true ∨ entryDescMatch entryLaptop s = true :=
  C9_multi_stem_text_required [] dbLaptop (jstr "ноутбук компьютер") (by decide)
    entryLaptop (by decide)

/-- C2: for a query whose planner produces `N ≥ 2` distinct stems, every
entry in the returned list matches at least `⌈0.4 × N⌉` of those stems,
where a stem counts as matched when it produced a title-stem containment
match, a description substring match, or a code-prefix signal match for the
entry. -/
theorem C2_match_density (syn : List (JStr × List JStr)) (db : List TNVEDCode)
    (q : JStr) (hnd : (queryStems q).Nodup) (hlen : 2 ≤ (queryStems q).length) :
    ∀ e ∈ handleSearchLocal (buildSynIndex syn) (buildSearchIndex db) q,
      ⌈(0.4 : ℚ) * ((queryStems q).length : ℚ)⌉ ≤
        (((queryStems q).filter
          (fun s => broadStemMatch (buildSynIndex syn) s e)).length : ℤ) := by
  intro e he
  obtain ⟨sc, hrel⟩ := mem_handleSearch_elim he
  obtain ⟨it, hit, hitem, _, hrelv⟩ := mem_relevant_elim hrel
  obtain ⟨_, hdens⟩ := isRelevant_multi hlen hrelv
  have hn : 0 < (queryStems q).length := by omega
  have hcount := density_count hn hdens
  rw [scoreEntry_matched] at hcount
  have hitems : it ∈ db.map indexItem := hit
  obtain ⟨e0, he0, rfl⟩ := items_mem_indexItem hitems
  have he0e : e0 = e := hitem
  subst he0e
  have hmono := length_filter_mono (p := fun s => titleHit (indexItem e0) s ||
      descHit (indexItem e0) s)
    (q := fun s => broadStemMatch (buildSynIndex syn) s e0) (queryStems q) ?_
  · rw [Int.ceil_le]
    push_cast
    have hnat : 2 * (queryStems q).length ≤
        5 * ((queryStems q).filter
          (fun s => broadStemMatch (buildSynIndex syn) s e0)).length :=
      le_trans hcount (by omega)
    have hq : (2 : ℚ) * ((queryStems q).length : ℚ) ≤
        5 * (((queryStems q).filter
          (fun s => broadStemMatch (buildSynIndex syn) s e0)).length : ℚ) := by
      exact_mod_cast hnat
    linarith
  · intro s _ hp
    unfold broadStemMatch entryTitleMatch entryDescMatch
    have hp2 : titleHit (indexItem e0) s = true ∨ descHit (indexItem e0) s = true := by
      simpa using hp
    rcases hp2 with h | h <;> simp [h]

/-- C2 witness: the two-stem laptop query returns the laptop entry, which
matches at least `⌈0.4 × 2⌉ = 1` of the two stems. -/
theorem C2_witness :
    ⌈(0.4 : ℚ) * ((queryStems (jstr "ноутбук компьютер")).length : ℚ)⌉ ≤
      (((queryStems (jstr "ноутбук компьютер")).filter
        (fun s => broadStemMatch (buildSynIndex []) s entryLaptop)).length : ℤ) :=
  C2_match_density [] dbLaptop (jstr "ноутбук компьютер") (by decide) (by decide)
    entryLaptop (by decide)

/-- C10: whenever the synonym expansion produced at least one weighted code
prefix, the candidate set is drawn exclusively from the 2- and 4-character
prefix postings of those weighted prefixes (for a prefix of unexpected
length, its 4-slice posting), so the title-stem postings and the capped
scan fallbacks are never consulted; consequently the result can be empty
even though a query stem matches some entry's title. -/
theorem C10_prefix_candidates_exclusive :
    (∀ (syn : List (JStr × List JStr)) (db : List TNVEDCode) (q : JStr) (i : Nat),
      codePrefixWeights (buildSynIndex syn) (queryStems q) ≠ [] →
      i ∈ candidatesOf (buildSynIndex syn) (buildSearchIndex db) q →
      ∃ pw ∈ codePrefixWeights (buildSynIndex syn) (queryStems q),
        i ∈ (mapGet (buildSearchIndex db).byPrefix2 pw.1).getD [] ∨
        i ∈ (mapGet (buildSearchIndex db).byPrefix4 pw.1).getD [] ∨
        i ∈ (mapGet (buildSearchIndex db).byPrefix4 (pw.1.take 4)).getD []) ∧
    (codePrefixWeights (buildSynIndex synMiss) (queryStems (jstr "телефон")) ≠ [] ∧
      handleSearchLocal (buildSynIndex synMiss) (buildSearchIndex dbPhone)
        (jstr "телефон") = [] ∧
      ∃ s ∈ queryStems (jstr "телефон"), ∃ e ∈ dbPhone, entryTitleMatch e s = true) := by
  constructor
  · intro syn db q i hw hi
    unfold candidatesOf buildCandidates at hi
    rw [if_pos (by simpa [List.length_pos] using hw)] at hi
    revert i
    refine @foldl_preserve_mem _ _
      (fun c => ∀ j ∈ c,
        ∃ pw ∈ codePrefixWeights (buildSynIndex syn) (queryStems q),
          j ∈ (mapGet (buildSearchIndex db).byPrefix2 pw.1).getD [] ∨
          j ∈ (mapGet (buildSearchIndex db).byPrefix4 pw.1).getD [] ∨
          j ∈ (mapGet (buildSearchIndex db).byPrefix4 (pw.1.take 4)).getD [])
      (fun c pw => addPrefixCandidates (buildSearchIndex db) c pw.1)
      (codePrefixWeights (buildSynIndex syn) (queryStems q))
      (fun c pw hpw hc => ?_) []
      (fun j hj => absurd hj (List.not_mem_nil j))
    dsimp only at hc ⊢
    unfold addPrefixCandidates
    split
    · intro j hj
      rcases mem_setAddAll_elim _ c hj with h | h
      · exact hc j h
      · exact ⟨pw, hpw, Or.inl h⟩
    · split
      · intro j hj
        rcases mem_setAddAll_elim _ c hj with h | h
        · exact hc j h
        · exact ⟨pw, hpw, Or.inr (Or.inl h)⟩
      · intro j hj
        simp only at hj
        split at hj
        · rcases mem_setAddAll_elim _ c hj with h | h
          · exact hc j h
          · exact ⟨pw, hpw, Or.inr (Or.inr h)⟩
        · exact hc j hj
  · refine ⟨by decide, by decide, ?_⟩
    decide

/-- C10 witness: for the phone query the prefix signal is present and
candidate 0 indeed comes from a weighted prefix posting. -/
theorem C10_witness :
    ∃ pw ∈ codePrefixWeights (buildSynIndex synPhone) (queryStems (jstr "телефон")),
      0 ∈ (mapGet (buildSearchIndex dbPhone).byPrefix2 pw.1).getD [] ∨
      0 ∈ (mapGet (buildSearchIndex dbPhone).byPrefix4 pw.1).getD [] ∨
      0 ∈ (mapGet (buildSearchIndex dbPhone).byPrefix4 (pw.1.take 4)).getD [] :=
  C10_prefix_candidates_exclusive.1 synPhone dbPhone (jstr "телефон") 0 (by decide)
    (by decide)

/-- C1 counterexample: with the empty synonym table and the one-entry
catalog whose entry's description literally contains `8703` while its title
stems have no containment match with `8703`, the query `8703` produces no
alias weights and falls through to the capped scan, a scanned entry's
description contains `8703`, and yet the result list is empty — refuting
the claimed equivalence between a non-empty result and description
containment. -/
theorem C1_cex :
    codePrefixWeights (buildSynIndex []) (queryStems (jstr "8703")) = [] ∧
    (∀ e ∈ dbDesc8703, entryTitleMatch e (jstr "8703") = false) ∧
    candidatesOf (buildSynIndex []) (buildSearchIndex dbDesc8703) (jstr "8703") =
      List.range (min (buildSearchIndex dbDesc8703).items.length 3000) ∧
    (∃ e ∈ dbDesc8703, entryDescMatch e (jstr "8703") = true) ∧
    handleSearchLocal (buildSynIndex []) (buildSearchIndex dbDesc8703)
      (jstr "8703") = [] := by
  exact ⟨by decide, by decide, by decide, ⟨entryDesc8703, by decide, by decide⟩, by decide⟩

/-- C1 (amended): for every synonym table and catalog such that the query
`8703` has no alias match (the synonym expansion yields no weighted prefix)
and no catalog entry has a title-stem containment match with `8703`, the
search falls through to the bounded scan of the first `min(|catalog|, 3000)`
entries and the result is empty regardless of description containment: a
description-only match neither sets the subject-confirmed flag nor lifts
the score above the single-term floor, so no scanned entry passes the
relevance filter. -/
theorem C1_amended (syn : List (JStr × List JStr)) (db : List TNVEDCode)
    (hw : codePrefixWeights (buildSynIndex syn) (queryStems (jstr "8703")) = [])
    (ht : ∀ e ∈ db, entryTitleMatch e (jstr "8703") = false) :
    candidatesOf (buildSynIndex syn) (buildSearchIndex db) (jstr "8703") =
      List.range (min (buildSearchIndex db).items.length 3000) ∧
    handleSearchLocal (buildSynIndex syn) (buildSearchIndex db) (jstr "8703") = [] := by
  have hstems : queryStems (jstr "8703") = [jstr "8703"] := by decide
  have htitle : ∀ (i : Nat) (it : IndexedTNVED),
      (buildSearchIndex db).items[i]? = some it → titleHit it (jstr "8703") = false := by
    intro i it hit
    have hit2 : (db.map indexItem)[i]? = some it := hit
    obtain ⟨e0, he0, rfl⟩ := items_getElem_indexItem hit2
    exact ht e0 (List.mem_iff_getElem?.mpr ⟨i, he0⟩)
  have hbs : (mapGet (buildSearchIndex db).byStem (jstr "8703")).getD [] = [] := by
    cases hg : mapGet (buildSearchIndex db).byStem (jstr "8703") with
    | none => rfl
    | some l =>
      cases l with
      | nil => rfl
      | cons i rest =>
        exfalso
        obtain ⟨it, hit, hstem⟩ := byStem_sound db _ _ hg i (List.mem_cons_self _ _)
        have hth := htitle i it hit
        unfold titleHit at hth
        rw [List.any_eq_false] at hth
        exact hth (jstr "8703") hstem (by simp [jsIncludes_refl])
  have hcand : candidatesOf (buildSynIndex syn) (buildSearchIndex db) (jstr "8703") =
      List.range (min (buildSearchIndex db).items.length 3000) := by
    unfold candidatesOf buildCandidates
    rw [hw, hstems]
    rw [if_neg (by simp)]
    rw [show ([jstr "8703"]).foldl
        (fun c2 s => setAddAll c2 ((mapGet (buildSearchIndex db).byStem s).getD [])) [] =
        setAddAll [] ((mapGet (buildSearchIndex db).byStem (jstr "8703")).getD []) from rfl]
    rw [hbs]
    rfl
  refine ⟨hcand, ?_⟩
  rw [handleSearch_eq_main (by decide) (by decide) (by decide)]
  have hrel : relevantResults (buildSynIndex syn) (buildSearchIndex db) (jstr "8703") = [] := by
    unfold relevantResults
    rw [List.filterMap_eq_nil_iff]
    intro i hi
    cases hit : (buildSearchIndex db).items[i]? with
    | none => rfl
    | some it =>
      show scoreFilter
        (codePrefixWeights (buildSynIndex syn) (queryStems (jstr "8703")))
        (queryStems (jstr "8703")) it = none
      have hsubj :
          (scoreEntry (codePrefixWeights (buildSynIndex syn) (queryStems (jstr "8703")))
            (queryStems (jstr "8703")) it).2.1 = false := by
        rw [hw, hstems]
        unfold scoreEntry
        show (textFold it [jstr "8703"] 0 (0, false, 0)).2.1 = false
        simp only [textFold]
        rw [if_neg (by rw [htitle i it hit]; simp)]
        split <;> rfl
      have hnot : ¬ isRelevant (queryStems (jstr "8703"))
          (scoreEntry (codePrefixWeights (buildSynIndex syn) (queryStems (jstr "8703")))
            (queryStems (jstr "8703")) it) = true := by
        unfold isRelevant
        rw [hsubj]
        simp
      unfold scoreFilter
      rw [if_neg hnot]
  rw [hrel]
  rfl

/-- C1 witness: the amended statement instantiated at the concrete
counterexample data. -/
theorem C1_witness :
    candidatesOf (buildSynIndex []) (buildSearchIndex dbDesc8703) (jstr "8703") =
      List.range (min (buildSearchIndex dbDesc8703).items.length 3000) ∧
    handleSearchLocal (buildSynIndex []) (buildSearchIndex dbDesc8703)
      (jstr "8703") = [] :=
  C1_amended [] dbDesc8703 (by decide) (by decide)

theorem pickLongest_eq_none : ∀ (l : List JStr), pickLongest l = none → l = [] := by
  intro l
  cases l with
  | nil => intro _; rfl
  | cons x rest =>
    intro h
    exfalso
    cases hp : pickLongest rest with
    | none => simp [pickLongest, hp] at h
    | some t =>
      simp only [pickLongest, hp] at h
      split at h <;> simp at h

theorem pickLongest_mem : ∀ (l : List JStr) (s : JStr), pickLongest l = some s → s ∈ l := by
  intro l
  induction l with
  | nil => intro s h; simp [pickLongest] at h
  | cons x rest ih =>
    intro s h
    cases hp : pickLongest rest with
    | none =>
      simp [pickLongest, hp] at h
      simp [h]
    | some t =>
      simp only [pickLongest, hp] at h
      split at h
      · obtain rfl : x = s := by simpa using h
        exact List.mem_cons_self _ _
      · obtain rfl : t = s := by simpa using h
        exact List.mem_cons_of_mem _ (ih t hp)

theorem pickLongest_max : ∀ (l : List JStr) (s : JStr), pickLongest l = some s →
    ∀ t ∈ l, t.length ≤ s.length := by
  intro l
  induction l with
  | nil => intro s _ t ht; exact absurd ht (List.not_mem_nil t)
  | cons x rest ih =>
    intro s h t ht
    cases hp : pickLongest rest with
    | none =>
      have hrest : rest = [] := pickLongest_eq_none rest hp
      subst hrest
      simp [pickLongest] at h
      have ht2 : t = x := by simpa using ht
      rw [ht2, h]
    | some u =>
      simp only [pickLongest, hp] at h
      split at h
      · next hlt =>
        obtain rfl : x = s := by simpa using h
        rcases List.mem_cons.mp ht with rfl | hmem
        · exact le_refl _
        · exact le_trans (ih u hp t hmem) (le_of_lt hlt)
      · next hge =>
        obtain rfl : u = s := by simpa using h
        rcases List.mem_cons.mp ht with rfl | hmem
        · omega
        · exact ih u hp t hmem

theorem stemStrip_eq_spec : ∀ (l : JStr),
    stemStrip l =
      match pickLongest (SUFFIXES.filter (fun suf => suf.isSuffixOf l)) with
      | none => l
      | some suf => l.take (l.length - suf.length) := by
  intro l
  induction l with
  | nil => decide
  | cons c rest ih =>
    by_cases hall : SUFFIXES.any (fun suf => suf == c :: rest) = true
    · have hmem : (c :: rest) ∈ SUFFIXES.filter (fun suf => suf.isSuffixOf (c :: rest)) := by
        simp only [List.any_eq_true, beq_iff_eq] at hall
        obtain ⟨suf, hsuf, rfl⟩ := hall
        exact List.mem_filter.mpr ⟨hsuf,
          List.isSuffixOf_iff_suffix.mpr (List.suffix_refl _)⟩
      show stemStrip (c :: rest) = _
      rw [stemStrip, if_pos hall]
      cases hp : pickLongest (SUFFIXES.filter (fun suf => suf.isSuffixOf (c :: rest))) with
      | none =>
        exact absurd (pickLongest_eq_none _ hp ▸ hmem) (List.not_mem_nil _)
      | some s =>
        have hs := pickLongest_mem _ s hp
        have hsfx : s <:+ c :: rest :=
          List.isSuffixOf_iff_suffix.mp (List.mem_filter.mp hs).2
        have hle : s.length ≤ (c :: rest).length := hsfx.length_le
        have hge : (c :: rest).length ≤ s.length := pickLongest_max _ s hp _ hmem
        have hseq : s = c :: rest := hsfx.eq_of_length (by omega)
        subst hseq
        simp
    · show stemStrip (c :: rest) = _
      rw [stemStrip, if_neg hall]
      have hne : ∀ suf ∈ SUFFIXES, suf ≠ c :: rest := by
        intro suf hsuf
        simp only [List.any_eq_true, beq_iff_eq] at hall
        exact fun heq => hall ⟨suf, hsuf, heq⟩
      have hfe : SUFFIXES.filter (fun suf => suf.isSuffixOf (c :: rest)) =
          SUFFIXES.filter (fun suf => suf.isSuffixOf rest) := by
        refine List.filter_congr ?_
        intro suf hsuf
        refine Bool.coe_iff_coe.mp ?_
        rw [List.isSuffixOf_iff_suffix, List.isSuffixOf_iff_suffix, List.suffix_cons_iff]
        constructor
        · rintro (heq | h)
          · exact absurd heq (hne suf hsuf)
          · exact h
        · exact fun h => Or.inr h
      rw [hfe, ih]
      cases hp : pickLongest (SUFFIXES.filter (fun suf => suf.isSuffixOf rest)) with
      | none => rfl
      | some suf =>
        have hs := pickLongest_mem _ suf hp
        have hsfx : suf <:+ rest := List.isSuffixOf_iff_suffix.mp (List.mem_filter.mp hs).2
        have hle : suf.length ≤ rest.length := hsfx.length_le
        show c :: rest.take (rest.length - suf.length) =
          (c :: rest).take ((c :: rest).length - suf.length)
        have harith : (c :: rest).length - suf.length = (rest.length - suf.length) + 1 := by
          simp only [List.length_cons]
          omega
        rw [harith, List.take_succ_cons]

/-- C3 counterexample: the token `а` consists of a listed suffix, so the
claimed guard would return it unchanged, but the stemmer strips it and
returns the empty string. -/
theorem C3_cex :
    jstr "а" ∈ SUFFIXES ∧ getStem (jstr "а") = [] ∧ jstr "а" ≠ [] ∧
      ¬ getStem (jstr "а") = jstr "а" := by
  decide

/-- C3 (amended): the stemmer strips at most one suffix, namely the longest
listed suffix of the normalized (lowercased, trimmed, punctuation-free)
token, and returns the normalized token unchanged when no listed suffix
matches; there is no guard against stripping the whole token, so the result
may be empty.  Stated as an exact correspondence with the spec-shaped
stemmer `stemSpec`. -/
theorem C3_amended_stemmer (w : JStr) : getStem w = stemSpec w := by
  unfold getStem stemSpec
  exact stemStrip_eq_spec _

theorem queryWords_single (t : JStr)
    (hnows : ∀ c ∈ jsToLower (jsTrim t), isWs c = false)
    (hwlen : 2 ≤ (jsToLower (jsTrim t)).length)
    (hstop : STOP_WORDS.contains (jsToLower (jsTrim t)) = false) :
    queryWords t = [jsToLower (jsTrim t)] := by
  unfold queryWords
  have h1 : queryTrimmed t = jsToLower (jsTrim t) := rfl
  rw [h1, splitWs_nows hnows]
  simp only [List.map_cons, List.map_nil, jsTrim_nows hnows]
  have hstop2 : jsToLower (jsTrim t) ∉ STOP_WORDS := by simpa using hstop
  simp [hwlen, hstop2]

theorem queryStems_single (t : JStr)
    (hnows : ∀ c ∈ jsToLower (jsTrim t), isWs c = false)
    (hwlen : 2 ≤ (jsToLower (jsTrim t)).length)
    (hstop : STOP_WORDS.contains (jsToLower (jsTrim t)) = false)
    (hstem : 2 ≤ (getStem (jsToLower (jsTrim t))).length) :
    queryStems t = [getStem (jsToLower (jsTrim t))] := by
  unfold queryStems
  rw [queryWords_single t hnows hwlen hstop]
  simp [hstem]

theorem codePrefixWeights_single_direct (sidx : SynIndex) (s : JStr) (l : List JStr)
    (hget : mapGet sidx.stemToPrefixes s = some l) (hne : ¬ l = []) :
    codePrefixWeights sidx [s] =
      l.foldl (fun m2 p => mapAdd m2 p (2000 * 2.5 * 1.2)) [] := by
  unfold codePrefixWeights
  show stemWeights sidx [] 0 s = _
  unfold stemWeights
  rw [hget]
  dsimp only
  rw [if_neg (by simpa [List.isEmpty_iff] using hne)]
  simp

theorem mem_buildCandidates_of_posting (idx : SearchIndex) (weights : List (JStr × ℚ))
    (stems : List JStr) {i : Nat} {p : JStr} {w : ℚ} (hpw : (p, w) ∈ weights)
    (hpost : (p.length = 2 ∧ i ∈ (mapGet idx.byPrefix2 p).getD []) ∨
      (p.length = 4 ∧ i ∈ (mapGet idx.byPrefix4 p).getD [])) :
    i ∈ buildCandidates idx weights stems := by
  unfold buildCandidates
  rw [if_pos (by simpa [List.length_pos] using List.ne_nil_of_mem hpw)]
  refine @foldl_establish_mem _ _ (fun c => i ∈ c)
    (fun c pw => addPrefixCandidates idx c pw.1) weights
    (fun c pw _ hc => ?_) (p, w) hpw (fun c => ?_) []
  · dsimp only at hc ⊢
    unfold addPrefixCandidates
    split
    · exact mem_setAddAll_left _ _ hc
    · split
      · exact mem_setAddAll_left _ _ hc
      · dsimp only
        split
        · exact mem_setAddAll_left _ _ hc
        · exact hc
  · dsimp only
    unfold addPrefixCandidates
    rcases hpost with ⟨h2, hin⟩ | ⟨h4, hin⟩
    · rw [if_pos (by simp [h2])]
      exact mem_setAddAll_right _ _ hin
    · rw [if_neg (by simp [h4]), if_pos (by simp [h4])]
      exact mem_setAddAll_right _ _ hin

/-- C4 counterexample: the alias `для` is registered under the prefix `85`
present in the synonym table (its stem `дл` is in the index), the phone
entry's 2-character code prefix is `85`, and yet searching for `для`
returns the empty list — the alias is a stop word and is discarded during
query normalization, so the claim fails as stated. -/
theorem C4_cex :
    (jstr "85", [jstr "для"]) ∈ synStop ∧ jstr "для" ∈ [jstr "для"] ∧
    (jstr "85").length = 2 ∧ entryPhone.code.take 2 = jstr "85" ∧
    entryPhone ∈ dbPhone ∧
    mapGet (buildSynIndex synStop).stemToPrefixes
      (getStem (jsTrim (jsToLower (jstr "для")))) = some [jstr "85"] ∧
    handleSearchLocal (buildSynIndex synStop) (buildSearchIndex dbPhone)
      (jstr "для") = [] := by
  decide

/-- C4 (amended): for every code prefix of length 2 or 4 present in the
synonym table, every alias term registered under it that survives query
normalization (a single whitespace-free token whose trimmed lowercase form
has length at least 2 and is not a stop word, with a stem of length at
least 2), and every catalog entry whose matching-length code prefix equals
that prefix, searching for the alias term places the entry in the relevant
result set, and the entry appears in the returned list whenever the
relevant set does not exceed the result cap of 30. -/
theorem C4_amended (syn : List (JStr × List JStr)) (db : List TNVEDCode)
    (p t : JStr) (terms : List JStr) (e : TNVEDCode)
    (hsyn : (p, terms) ∈ syn) (hterm : t ∈ terms)
    (hp : p.length = 2 ∨ p.length = 4)
    (hcode : e.code.take p.length = p)
    (he : e ∈ db)
    (hnows : ∀ c ∈ jsToLower (jsTrim t), isWs c = false)
    (hwlen : 2 ≤ (jsToLower (jsTrim t)).length)
    (hstop : STOP_WORDS.contains (jsToLower (jsTrim t)) = false)
    (hstem : 2 ≤ (getStem (jsToLower (jsTrim t))).length) :
    (∃ sc, (e, sc) ∈ relevantResults (buildSynIndex syn) (buildSearchIndex db) t) ∧
    ((relevantResults (buildSynIndex syn) (buildSearchIndex db) t).length ≤ 30 →
      e ∈ handleSearchLocal (buildSynIndex syn) (buildSearchIndex db) t) := by
  have hcomm : getStem (jsTrim (jsToLower t)) = getStem (jsToLower (jsTrim t)) := by
    rw [jsTrim_jsToLower]
  obtain ⟨l, hget, hpl⟩ := stemToPrefixes_complete syn p terms t hsyn hterm
    (by rw [hcomm]; omega)
  rw [hcomm] at hget
  have hstems : queryStems t = [getStem (jsToLower (jsTrim t))] :=
    queryStems_single t hnows hwlen hstop hstem
  have hweq : codePrefixWeights (buildSynIndex syn) (queryStems t) =
      l.foldl (fun m2 p2 => mapAdd m2 p2 (2000 * 2.5 * 1.2)) [] := by
    rw [hstems]
    exact codePrefixWeights_single_direct (buildSynIndex syn) _ l hget
      (fun h => absurd (h ▸ hpl) (List.not_mem_nil p))
  have hwp : (6000 : ℚ) ≤
      wGet (codePrefixWeights (buildSynIndex syn) (queryStems t)) p := by
    rw [hweq]
    have h0 := wGet_foldl_mapAdd_mem (2000 * 2.5 * 1.2) (by norm_num) l [] hpl
    have hz : wGet [] p = 0 := rfl
    rw [hz] at h0
    calc (6000 : ℚ) = 0 + 2000 * 2.5 * 1.2 := by norm_num
    _ ≤ _ := h0
  have hpair : (p, wGet (codePrefixWeights (buildSynIndex syn) (queryStems t)) p) ∈
      codePrefixWeights (buildSynIndex syn) (queryStems t) :=
    mem_of_wGet_pos (lt_of_lt_of_le (by norm_num) hwp)
  have hnonneg := codePrefixWeights_nonneg (buildSynIndex syn) (queryStems t)
  obtain ⟨i, hi⟩ := List.mem_iff_getElem?.mp he
  have hitems : (buildSearchIndex db).items[i]? = some (indexItem e) := by
    show (db.map indexItem)[i]? = some (indexItem e)
    rw [List.getElem?_map, hi]
    rfl
  have hpost : (p.length = 2 ∧
      i ∈ (mapGet (buildSearchIndex db).byPrefix2 p).getD []) ∨
      (p.length = 4 ∧ i ∈ (mapGet (buildSearchIndex db).byPrefix4 p).getD []) := by
    rcases hp with h2 | h4
    · refine Or.inl ⟨h2, ?_⟩
      have hc2 : (indexItem e).code2 = p := by
        show e.code.take 2 = p
        rw [← h2]
        exact hcode
      have := postings_complete (db.map indexItem) (fun it => it.code2) i
        (indexItem e) hitems
      dsimp only at this
      rw [hc2] at this
      exact this
    · refine Or.inr ⟨h4, ?_⟩
      have hc4 : (indexItem e).code4 = p := by
        show e.code.take 4 = p
        rw [← h4]
        exact hcode
      have := postings_complete (db.map indexItem) (fun it => it.code4) i
        (indexItem e) hitems
      dsimp only at this
      rw [hc4] at this
      exact this
  have hcand : i ∈ candidatesOf (buildSynIndex syn) (buildSearchIndex db) t :=
    mem_buildCandidates_of_posting (buildSearchIndex db) _ _ hpair hpost
  have hhit :
      ((p.length == 2 && (indexItem e).code2 == p) ||
        (p.length == 4 && (indexItem e).code4 == p) ||
        (!(p.length == 2) && !(p.length == 4) &&
          p.isPrefixOf (indexItem e).item.code)) = true := by
    rcases hp with h2 | h4
    · have hc2 : (indexItem e).code2 = p := by
        show e.code.take 2 = p
        rw [← h2]
        exact hcode
      simp [h2, hc2]
    · have hc4 : (indexItem e).code4 = p := by
        show e.code.take 4 = p
        rw [← h4]
        exact hcode
      simp [h4, hc4]
  have hpf := prefixFold_hit (indexItem e) hhit
    (codePrefixWeights (buildSynIndex syn) (queryStems t)) (0, false) hpair hnonneg
  set st := scoreEntry (codePrefixWeights (buildSynIndex syn) (queryStems t))
    (queryStems t) (indexItem e) with hst
  have hscore : 800 < st.1 := by
    have h1 : (0 : ℚ) + wGet (codePrefixWeights (buildSynIndex syn) (queryStems t)) p ≤
        (prefixFold (indexItem e)
          (codePrefixWeights (buildSynIndex syn) (queryStems t)) (0, false)).1 := hpf.1
    have h2 := textFold_score_ge (indexItem e) (queryStems t) 0
      ((prefixFold (indexItem e)
          (codePrefixWeights (buildSynIndex syn) (queryStems t)) (0, false)).1,
        (prefixFold (indexItem e)
          (codePrefixWeights (buildSynIndex syn) (queryStems t)) (0, false)).2, 0)
    have hst1 : st.1 = (textFold (indexItem e) (queryStems t) 0
        ((prefixFold (indexItem e)
            (codePrefixWeights (buildSynIndex syn) (queryStems t)) (0, false)).1,
          (prefixFold (indexItem e)
            (codePrefixWeights (buildSynIndex syn) (queryStems t)) (0, false)).2, 0)).1 :=
      rfl
    rw [hst1]
    have h3 : (0 : ℚ) + wGet (codePrefixWeights (buildSynIndex syn) (queryStems t)) p ≤
        (textFold (indexItem e) (queryStems t) 0
          ((prefixFold (indexItem e)
              (codePrefixWeights (buildSynIndex syn) (queryStems t)) (0, false)).1,
            (prefixFold (indexItem e)
              (codePrefixWeights (buildSynIndex syn) (queryStems t)) (0, false)).2,
            0)).1 := le_trans h1 h2
    linarith
  have hsubj : st.2.1 = true := by
    have h1 : st.2.1 = (textFold (indexItem e) (queryStems t) 0
        ((prefixFold (indexItem e)
            (codePrefixWeights (buildSynIndex syn) (queryStems t)) (0, false)).1,
          (prefixFold (indexItem e)
            (codePrefixWeights (buildSynIndex syn) (queryStems t)) (0, false)).2,
          0)).2.1 := rfl
    rw [h1]
    exact textFold_subj_true _ _ _ _ hpf.2
  have hrelv : isRelevant (queryStems t) st = true := by
    unfold isRelevant
    rw [hsubj, hstems]
    simpa using hscore
  have hsf : scoreFilter (codePrefixWeights (buildSynIndex syn) (queryStems t))
      (queryStems t) (indexItem e) = some (e, st.1) := by
    unfold scoreFilter
    rw [← hst, if_pos hrelv]
    rfl
  have hmemrel : (e, st.1) ∈ relevantResults (buildSynIndex syn) (buildSearchIndex db) t := by
    unfold relevantResults
    refine List.mem_filterMap.mpr ⟨i, hcand, ?_⟩
    rw [hitems]
    show scoreFilter _ _ (indexItem e) = some (e, st.1)
    exact hsf
  refine ⟨⟨st.1, hmemrel⟩, fun hcap => ?_⟩
  have hg1 : ¬ (queryTrimmed t).length < 2 := by
    have : queryTrimmed t = jsToLower (jsTrim t) := rfl
    rw [this]
    omega
  have hg2 : ¬ (queryWords t).isEmpty = true := by
    rw [queryWords_single t hnows hwlen hstop]
    simp
  have hg3 : ¬ (queryStems t).isEmpty = true := by
    rw [hstems]
    simp
  rw [handleSearch_eq_main hg1 hg2 hg3]
  rw [List.take_of_length_le
    (by rw [List.length_map, length_sortDesc]; exact hcap)]
  exact List.mem_map.mpr ⟨(e, st.1), mem_sortDesc.mpr hmemrel, rfl⟩

/-- C4 witness: the amended statement at the phone alias and the phone
entry; the entry is in the relevant set and, the set being under the cap,
in the returned list. -/
theorem C4_witness :
    (∃ sc, (entryPhone, sc) ∈
      relevantResults (buildSynIndex synPhone) (buildSearchIndex dbPhone)
        (jstr "телефон")) ∧
    ((relevantResults (buildSynIndex synPhone) (buildSearchIndex dbPhone)
        (jstr "телефон")).length ≤ 30 →
      entryPhone ∈ handleSearchLocal (buildSynIndex synPhone)
        (buildSearchIndex dbPhone) (jstr "телефон")) :=
  C4_amended synPhone dbPhone (jstr "85") (jstr "телефон") [jstr "телефон"]
    entryPhone (by decide) (by decide) (Or.inl (by decide)) (by decide) (by decide)
    (by decide) (by decide) (by decide) (by decide)

example : getStem (jstr "Красная") = jstr "красн" := by decide
example : handleSearchLocal (buildSynIndex synPhone) (buildSearchIndex dbPhone)
    (jstr "телефон") = [entryPhone] := by decide
example : handleSearchLocal (buildSynIndex []) (buildSearchIndex dbDesc8703)
    (jstr "8703") = [] := by decide
example : candidatesOf (buildSynIndex []) (buildSearchIndex dbDesc8703)
    (jstr "8703") = [0] := by decide
example : handleSearchLocal (buildSynIndex []) (buildSearchIndex dbLaptop)
    (jstr "ноутбук компьютер") = [entryLaptop] := by decide
example : handleSearchLocal (buildSynIndex synStop) (buildSearchIndex dbPhone)
    (jstr "для") = [] := by decide
example : handleSearchLocal (buildSynIndex synMiss) (buildSearchIndex dbPhone)
    (jstr "телефон") = [] := by decide
example : queryStems (jstr "телефон") = [jstr "телефон"] := by decide
example : queryStems (jstr "ноутбук компьютер") = [jstr "ноутбук", jstr "компьютер"] := by decide
example : mapGet (buildSynIndex synStop).stemToPrefixes (jstr "дл") = some [jstr "85"] := by decide
example : getStem (jstr "машинами") = jstr "машинам" := by decide
example : getStem (jstr "телефоны") = jstr "телефон" := by decide
example : getStem (jstr "а") = [] := by decide
example : splitWs (jstr " a  b ") = [jstr "", jstr "a", jstr "b", jstr ""] := by decide
example : jsIncludes (jstr "код 8703 прочее") (jstr "8703") = true := by decide
